import Mathlib

/-!
Verification of the IMDb ratings visualizer core.

A shallow embedding of the data transformation and analytics pipeline of
`src/app/page.tsx` (and, where noted, the alternate implementation kept in
`src/unnamed/part_000`): CSV-row normalization, filter evaluation, the
derived-statistics engine (streaks, gaps, top director, rating histogram)
and table pagination, together with theorems settling the specification
claims about them.

Modelling conventions:
* JavaScript numbers are modelled exactly (`ℚ` for finite values, plus
  `NaN` and signed infinities as symbols); IEEE-754 rounding and overflow
  are not modelled — no analysed value approaches them.
* Strings are Lean `String`s; the helpers that the source applies to them
  (`trim`, `toLowerCase`, `split(",")`, `includes`) are re-implemented
  over the character list so that every definition evaluates inside the
  kernel.  ASCII behaviour is identical to JavaScript's; the analysed
  claims involve ASCII data only.
* `Date` values are modelled at day granularity as integer day indices
  (the source truncates dates to local midnight and divides millisecond
  differences by 86 400 000, which is exact integer day arithmetic for a
  fixed UTC offset).  The platform-defined `new Date(string)` parser is a
  parameter.
-/

namespace IMDbViz

/-- Model of a JavaScript number: a finite value (exact, as a rational),
`NaN`, or a signed infinity. -/
inductive JSNum where
  | fin (q : ℚ)
  | nan
  | inf
  | ninf
deriving DecidableEq

/-- A JavaScript value as it reaches `parseNumber`: `null`/`undefined`, a
number, or a string. -/
inductive JSVal where
  | vnull
  | vnum (n : JSNum)
  | vstr (s : String)
deriving DecidableEq

/-- The character class kept by `String(x).replace(/[^0-9.\-]/g, "")`
(src/app/page.tsx line 21): digits, `'.'`, `'-'`. -/
def keepNumChar (c : Char) : Bool := c.isDigit || c = '.' || c = '-'

/-- `String(x).replace(/[^0-9.\-]/g, "")`. -/
def stripNonNumeric (s : String) : String := ⟨s.data.filter keepNumChar⟩

/-- Numeric value of a list of decimal digits, most significant first. -/
def digitsVal (l : List Char) : ℚ :=
  l.foldl (fun a c => 10 * a + ((c.toNat - 48 : ℕ) : ℚ)) 0

def isDigitList (l : List Char) : Bool := l.all (·.isDigit)

/-- Split a character list at `'.'` occurrences (mirrors how a decimal
literal is decomposed). -/
def splitDot : List Char → List (List Char)
  | [] => [[]]
  | c :: cs =>
    if c = '.' then [] :: splitDot cs
    else
      match splitDot cs with
      | [] => [[c]]
      | p :: ps => (c :: p) :: ps

/-- Value of an unsigned decimal mantissa: a digit string containing at
most one `'.'` and at least one digit.  `none` models `NaN`. -/
def parseMantissa (l : List Char) : Option ℚ :=
  match splitDot l with
  | [ip] => if !ip.isEmpty && isDigitList ip then some (digitsVal ip) else none
  | [ip, fp] =>
    if !(ip ++ fp).isEmpty && isDigitList ip && isDigitList fp then
      some (digitsVal ip + digitsVal fp / (10 : ℚ) ^ fp.length)
    else none
  | _ => none

/-- Model of JavaScript `Number(t)` for a string `t` over the post-strip
alphabet (digits, `'.'`, `'-'`): `Number("") = 0`; otherwise an optional
single leading `'-'` followed by a decimal mantissa; anything else is
`NaN`. -/
def jsNumberOf (t : String) : JSNum :=
  if t = "" then .fin 0
  else
    match t.data with
    | '-' :: rest =>
      match parseMantissa rest with
      | some q => .fin (-q)
      | none => .nan
    | l =>
      match parseMantissa l with
      | some q => .fin q
      | none => .nan

/-- `parseNumber` from src/app/page.tsx lines 18–23: `null`/`undefined`
gives `null`; a number is returned unchanged (no finiteness check); a
string is stripped to the numeric character class, converted with
`Number`, and the result is kept only if finite.  Note that this version
has no empty-string check, and JavaScript's `Number("") = 0`. -/
def parseNumber : JSVal → Option JSNum
  | .vnull => none
  | .vnum n => some n
  | .vstr s =>
    match jsNumberOf (stripNonNumeric s) with
    | .fin q => some (.fin q)
    | _ => none

/-- `parseNumber` from src/unnamed/part_000 lines 217–224: identical to
the page.tsx version except that an empty cleaned string is rejected
(`if (cleaned === "") return null;`) before numeric conversion. -/
def parseNumberAlt : JSVal → Option JSNum
  | .vnull => none
  | .vnum n => some n
  | .vstr s =>
    let cleaned := stripNonNumeric s
    if cleaned = "" then none
    else
      match jsNumberOf cleaned with
      | .fin q => some (.fin q)
      | _ => none

/-- Lift an optional string (a coalesced field lookup) to the JavaScript
value that reaches `parseNumber`: an absent field is `undefined`. -/
def jsValOf : Option String → JSVal
  | none => .vnull
  | some s => .vstr s

/-- The finite-rational projection of `parseNumber` as it is used by the
normalizer, whose inputs are always strings or absent.  On those inputs
`parseNumber` only ever returns finite numbers (`parseNumber_vstr_fin`
below), so this loses nothing. -/
def parseNum (o : Option String) : Option ℚ :=
  match parseNumber (jsValOf o) with
  | some (.fin q) => some q
  | _ => none

-- ---------- JavaScript string helpers (ASCII behaviour) ----------

/-- ASCII whitespace, the relevant fragment of what `String.prototype.trim`
removes. -/
def isWS (c : Char) : Bool := c = ' ' || c = '\t' || c = '\n' || c = '\r'

/-- JavaScript `s.trim()` (ASCII whitespace). -/
def jsTrim (s : String) : String :=
  ⟨((s.data.dropWhile isWS).reverse.dropWhile isWS).reverse⟩

/-- JavaScript `s.toLowerCase()` (ASCII case mapping). -/
def jsLower (s : String) : String := ⟨s.data.map Char.toLower⟩

/-- `s.split(",")` on the underlying character list: `"" ↦ [""]`,
separators produce (possibly empty) fields. -/
def splitComma : List Char → List (List Char)
  | [] => [[]]
  | c :: cs =>
    if c = ',' then [] :: splitComma cs
    else
      match splitComma cs with
      | [] => [[c]]
      | p :: ps => (c :: p) :: ps

/-- JavaScript `s.split(",")`. -/
def splitCommaStr (s : String) : List String :=
  (splitComma s.data).map (fun l => (⟨l⟩ : String))

/-- `pat` is a prefix of `s` (character lists). -/
def isPrefixL : List Char → List Char → Bool
  | [], _ => true
  | _ :: _, [] => false
  | a :: as, b :: bs => a = b && isPrefixL as bs

/-- `s.includes(pat)` on character lists. -/
def hasSub (s pat : List Char) : Bool :=
  isPrefixL pat s ||
    match s with
    | [] => false
    | _ :: rest => hasSub rest pat

/-- JavaScript `s.includes(pat)`. -/
def hasSubstr (s pat : String) : Bool := hasSub s.data pat.data

-- ---------- genre / director splitting ----------

/-- `splitGenres` (src/app/page.tsx line 25): a falsy (empty) string gives
`[]`; otherwise split on `','`, trim each token and drop empty tokens
(`filter(Boolean)`). -/
def splitGenres (s : String) : List String :=
  if s = "" then []
  else ((splitCommaStr s).map jsTrim).filter (fun g => g != "")

/-- The director-token split used inside `facts` (line 189):
`split(",").map(d => d.trim()).filter(Boolean)`. -/
def splitTrim (s : String) : List String :=
  ((splitCommaStr s).map jsTrim).filter (fun g => g != "")

-- ---------- raw rows and normalization ----------

/-- A raw CSV row as produced by `Papa.parse` with `header: true`: an
insertion-ordered mapping from column name to string value (a missing
column is simply absent from the list; Papa produces pairwise distinct
keys). -/
abbrev RawRow := List (String × String)

/-- JavaScript property read `r[k]` on a raw row. -/
def rawGet (row : RawRow) (k : String) : Option String :=
  (row.find? (fun kv => kv.1 == k)).map (·.2)

/-- `r[k₁] ?? r[k₂] ?? …`: the first *present* value wins.  `??` only
skips `null`/`undefined`; an empty string is present and is not
skipped. -/
def lookupChain (row : RawRow) (ks : List String) : Option String :=
  ks.findSome? (rawGet row)

/-- `parseDateMaybe` (line 24) with the platform-defined
`new Date(string)` parser abstracted as `dp` (the specification calls the
format "locale-ambiguous"); `!x` rejects both absent values and the empty
string, and an invalid date (`isNaN(d.getTime())`) is `none`. -/
def parseDateMaybe (dp : String → Option Int) : Option String → Option Int
  | none => none
  | some s => if s = "" then none else dp s

/-- A normalized record: the original raw row (kept by the object spread)
plus the twelve derived `__`-prefixed fields of the `Row` type
(src/app/page.tsx lines 57–62). -/
structure Row where
  src : RawRow
  __title : String
  __type : String
  __url : String
  __genres : List String
  __directors : String
  __tconst : String
  __yourRating : Option ℚ
  __imdbRating : Option ℚ
  __runtime : Option ℚ
  __year : Option ℚ
  __dateRated : Option Int
  __releaseDate : Option Int
deriving DecidableEq

/-- The normalization step of the `rows` memo (src/app/page.tsx lines
128–143), for one raw row and its index. -/
def normalize (dp : String → Option Int) (r : RawRow) (i : Nat) : Row :=
  { src := r
    __title := (lookupChain r ["Title", "title"]).getD ""
    __type := (lookupChain r ["Title Type", "title type", "type"]).getD ""
    __url := (lookupChain r ["URL", "url"]).getD ""
    __genres := splitGenres ((lookupChain r ["Genres", "genres"]).getD "")
    __directors := (lookupChain r ["Directors", "directors"]).getD ""
    __tconst := (lookupChain r ["Const", "const"]).getD (toString i)
    __yourRating := parseNum (lookupChain r ["Your Rating", "your rating", "rating"])
    __imdbRating := parseNum (lookupChain r ["IMDb Rating", "imdb rating"])
    __runtime := parseNum (lookupChain r ["Runtime (mins)", "runtime"])
    __year := parseNum (lookupChain r ["Year", "year"])
    __dateRated := parseDateMaybe dp (lookupChain r ["Date Rated", "date rated", "rated_at"])
    __releaseDate := parseDateMaybe dp (lookupChain r ["Release Date", "release date"]) }

/-- `rawRows.map((r, i) => …)` starting at index `i₀`. -/
def normalizeFrom (dp : String → Option Int) : Nat → List RawRow → List Row
  | _, [] => []
  | i, r :: rs => normalize dp r i :: normalizeFrom dp (i + 1) rs

/-- The full `rows` memo: normalize every raw row with its index. -/
def normalizeAll (dp : String → Option Int) (raws : List RawRow) : List Row :=
  normalizeFrom dp 0 raws

-- ---------- filter evaluation ----------

/-- The filter dimensions held in component state (src/app/page.tsx lines
75–80): title query, inclusive year range, minimum "your rating", exact
title type or `"all"`, and the genre chip set. -/
structure FilterState where
  q : String
  minYear : ℚ
  maxYear : ℚ
  minYourRating : ℚ
  titleType : String
  genreFilter : List String
deriving DecidableEq

/-- The per-record predicate of the `filtered` memo (src/app/page.tsx
lines 156–166).  A `none` numeric field fails `Number.isFinite` and passes
its dimension; all dimensions combine with `&&`. -/
def matchesRec (f : FilterState) (r : Row) : Bool :=
  let qLower := jsLower (jsTrim f.q)
  let yearOk :=
    match r.__year with
    | none => true
    | some y => decide (f.minYear ≤ y) && decide (y ≤ f.maxYear)
  let typeOk := f.titleType == "all" || r.__type == f.titleType
  let yourOk :=
    match r.__yourRating with
    | none => true
    | some q => decide (f.minYourRating ≤ q)
  let textOk := qLower == "" || hasSubstr (jsLower r.__title) qLower
  let genresOk := f.genreFilter.isEmpty || r.__genres.any (fun g => f.genreFilter.contains g)
  yearOk && typeOk && yourOk && textOk && genresOk

/-- `rows.filter(r => …)`: the filtered collection. -/
def filteredRows (rows : List Row) (f : FilterState) : List Row :=
  rows.filter (matchesRec f)

/-- The finite years of the collection, `rows.map(r => r.__year)
.filter(Number.isFinite)` (line 147). -/
def finiteYears (rows : List Row) : List ℚ := rows.filterMap (·.__year)

/-- `Math.min(...ys)` with the `[1900, 2100]` fallback of the `allYears`
memo (lines 146–149). -/
def allYearsLo (rows : List Row) : ℚ :=
  match finiteYears rows with
  | [] => 1900
  | y :: ys => ys.foldl min y

/-- `Math.max(...ys)` with the `[1900, 2100]` fallback. -/
def allYearsHi (rows : List Row) : ℚ :=
  match finiteYears rows with
  | [] => 2100
  | y :: ys => ys.foldl max y

/-- The filter state in which every dimension is at its neutral/default
value: empty query, the default full year range (the collection's
min/max, as installed by the effect on line 150), zero minimum rating,
wildcard type, empty genre set. -/
def neutralFilter (rows : List Row) : FilterState :=
  ⟨"", allYearsLo rows, allYearsHi rows, 0, "all", []⟩

-- ---------- rating histogram ----------

/-- Increment the count stored at position `i` (JavaScript
`bins[i].count += 1` for a valid integer index). -/
def bumpAt : List (Nat × Nat) → Nat → List (Nat × Nat)
  | [], _ => []
  | b :: bs, 0 => (b.1, b.2 + 1) :: bs
  | b :: bs, n + 1 => b :: bumpAt bs n

/-- `Array.from({length:10},(_,i)=>({bucket:i+1,count:0}))`: ten buckets
labelled 1..10 with zero counts. -/
def initBins : List (Nat × Nat) := (List.range 10).map (fun i => (i + 1, 0))

/-- One `forEach` step of `ratingHistogram` (lines 215–219): a non-null
rating in `[1,10]` increments `bins[rating-1]`.  When the rating is not an
integer, `bins[rating-1]` is `undefined` in JavaScript and the `.count`
access throws a `TypeError`, modelled as `none`; once thrown, the
iteration aborts (`none` is absorbing). -/
def histStep (acc : Option (List (Nat × Nat))) (r? : Option ℚ) :
    Option (List (Nat × Nat)) :=
  match acc with
  | none => none
  | some bins =>
    match r? with
    | none => some bins
    | some q =>
      if 1 ≤ q ∧ q ≤ 10 then
        if q.den = 1 then some (bumpAt bins (q.num.toNat - 1))
        else none
      else some bins

/-- `ratingHistogram` (src/app/page.tsx lines 215–219) as a function of
the filtered records' `__yourRating` values. -/
def ratingHistogram (ratings : List (Option ℚ)) : Option (List (Nat × Nat)) :=
  ratings.foldl histStep (some initBins)

/-- JavaScript `Math.round`: round half toward `+∞`. -/
def jsRound (q : ℚ) : ℤ := ⌊q + 1 / 2⌋

/-- The histogram exactly as claim C3 words it — a record contributes to
bucket `round(yourRating)` whenever the rating is non-null and lies in
`[1,10]`.  This follows the claim's words, not the source, and is stated
only for comparison with `ratingHistogram`. -/
def claimedRatingHistogram (ratings : List (Option ℚ)) : List (Nat × Nat) :=
  (List.range 10).map (fun i =>
    (i + 1, ratings.countP (fun r? =>
      match r? with
      | some q => decide (1 ≤ q) && decide (q ≤ 10) && (jsRound q == (i + 1 : ℤ))
      | none => false)))

-- ---------- top director ----------

/-- The running `(sum, n)` map of director credits, in insertion order
(JavaScript `Map` iterates in insertion order, and `set` on an existing
key keeps its position). -/
abbrev DirAcc := List (String × ℚ × Nat)

/-- `const m = dirMap.get(d) || {sum:0,n:0}; m.sum += rating; m.n += 1;
dirMap.set(d,m)`: update the entry for `d` in place or append a fresh
one. -/
def addCredit : DirAcc → String → ℚ → DirAcc
  | [], d, q => [(d, q, 1)]
  | e :: rest, d, q =>
    if e.1 = d then (e.1, e.2.1 + q, e.2.2 + 1) :: rest
    else e :: addCredit rest d q

/-- One record's contribution to the director map (lines 187–193): a falsy
`__directors` is skipped; each trimmed non-empty token receives the
record's rating when it is non-null, and otherwise nothing is written
(`dirMap.set` runs only under `Number.isFinite(r.__yourRating)`). -/
def dirStep (acc : DirAcc) (r : Row) : DirAcc :=
  if r.__directors = "" then acc
  else
    (splitTrim r.__directors).foldl
      (fun a d =>
        match r.__yourRating with
        | some q => addCredit a d q
        | none => a)
      acc

/-- The director map accumulated over the filtered collection. -/
def dirAcc (rows : List Row) : DirAcc := rows.foldl dirStep []

/-- One step of the `dirMap.forEach` scan on line 195: a director
qualifies with `n ≥ 3`; the best entry is replaced only under strict
`avg > best.avg`. -/
def topStep (best : Option (String × ℚ × Nat)) (e : String × ℚ × Nat) :
    Option (String × ℚ × Nat) :=
  if 3 ≤ e.2.2 then
    match best with
    | none => some (e.1, e.2.1 / (e.2.2 : ℚ), e.2.2)
    | some b =>
      if b.2.1 < e.2.1 / (e.2.2 : ℚ) then some (e.1, e.2.1 / (e.2.2 : ℚ), e.2.2)
      else best
  else best

/-- `topDirector` (src/app/page.tsx lines 186–195): the first qualifying
director attaining the maximal average, or `none`. -/
def topDirector (rows : List Row) : Option (String × ℚ × Nat) :=
  (dirAcc rows).foldl topStep none

-- ---------- streaks and gaps ----------

/-- Insert a day into an ascending duplicate-free list. -/
def insertDay (d : Int) : List Int → List Int
  | [] => [d]
  | x :: xs =>
    if d < x then d :: x :: xs
    else if d = x then x :: xs
    else x :: insertDay d xs

/-- `uniqueDays` (line 31): de-duplicate the day-truncated dates and sort
ascending.  Dates are modelled as integer day indices (see the module
docstring). -/
def uniqueDays (dates : List Int) : List Int :=
  dates.foldl (fun acc d => insertDay d acc) []

/-- The scan of `longestStreak` (lines 32–38) over the tail of the unique
day list: state is (best `(len, start, end)`, current run start, current
run length, previous day).  For integer day indices the source's
`Math.abs(diff - 1) < 1e-6` test is exactly `diff = 1`. -/
def streakLoop : Nat × Int × Int → Int → Nat → Int → List Int → Nat × Int × Int
  | best, curStart, curLen, prev, [] =>
    if best.1 < curLen then (curLen, curStart, prev) else best
  | best, curStart, curLen, prev, cur :: rest =>
    if cur - prev = 1 then streakLoop best curStart (curLen + 1) cur rest
    else
      streakLoop (if best.1 < curLen then (curLen, curStart, prev) else best)
        cur 1 cur rest

/-- `longestStreak` (src/app/page.tsx lines 32–38): length and bounds of
the longest run of consecutive unique days, first maximal run kept. -/
def longestStreak (dates : List Int) : Nat × Option Int × Option Int :=
  match uniqueDays dates with
  | [] => (0, none, none)
  | d :: rest =>
    let r := streakLoop (1, d, d) d 1 d rest
    (r.1, some r.2.1, some r.2.2)

/-- The scan of `longestGap` (lines 39–43): `gap > best.days` keeps the
first maximal gap.  `Math.round` of an exact integer day difference is the
difference itself. -/
def gapLoop : Int × Int × Int → Int → List Int → Int × Int × Int
  | best, _, [] => best
  | best, prev, cur :: rest =>
    gapLoop (if best.1 < cur - prev then (cur - prev, prev, cur) else best) cur rest

/-- `longestGap` (src/app/page.tsx lines 39–43): the maximal difference in
days between consecutive unique days; fewer than two unique days give
`(0, none, none)`. -/
def longestGap (dates : List Int) : Int × Option Int × Option Int :=
  match uniqueDays dates with
  | d0 :: d1 :: rest =>
    let r := gapLoop (0, d0, d1) d0 (d1 :: rest)
    (r.1, some r.2.1, some r.2.2)
  | _ => (0, none, none)

/-- Day index of a civil date (proleptic Gregorian, days since
1970-01-01); the model of `new Date(y, m-1, d).getTime() / 86400000` for a
fixed UTC offset.  Standard days-from-civil computation; all intermediate
quantities are non-negative for the dates analysed here. -/
def daysFromCivil (y m d : Int) : Int :=
  let yAdj := if m ≤ 2 then y - 1 else y
  let era := yAdj / 400
  let yoe := yAdj - era * 400
  let moe := if 2 < m then m - 3 else m + 9
  let doy := (153 * moe + 2) / 5 + d - 1
  let doe := yoe * 365 + yoe / 4 - yoe / 100 + doy
  era * 146097 + doe - 719468

-- ---------- pagination ----------

/-- `totalPages = Math.max(1, Math.ceil(sorted.length / pageSize))`
(src/app/page.tsx line 265), as the equivalent natural-number
computation (the equivalence with the rational ceiling is proved in
`totalPages_eq_ceil`). -/
def totalPages (count pageSize : Nat) : Nat :=
  max 1 ((count + pageSize - 1) / pageSize)

/-- The clamping effect on line 266: `if (page > totalPages)
setPage(totalPages)`. -/
def clampPage (page tp : Nat) : Nat := if tp < page then tp else page

-- ---------- the spread object and CSV export ----------

/-- The value stored under one key of a normalized row object: original
source columns hold strings; the derived fields hold the canonical typed
values. -/
inductive FieldVal where
  | fstr (s : String)
  | fnum (q : Option ℚ)
  | fdate (d : Option Int)
  | flist (l : List String)
deriving DecidableEq

/-- A JavaScript object as an insertion-ordered entry list. -/
abbrev Obj := List (String × FieldVal)

/-- The twelve derived entries written by the object spread on lines
141–142, in source order. -/
def derivedEntries (r : Row) : Obj :=
  [("__title", .fstr r.__title), ("__type", .fstr r.__type),
   ("__url", .fstr r.__url), ("__genres", .flist r.__genres),
   ("__directors", .fstr r.__directors), ("__tconst", .fstr r.__tconst),
   ("__yourRating", .fnum r.__yourRating), ("__imdbRating", .fnum r.__imdbRating),
   ("__runtime", .fnum r.__runtime), ("__year", .fnum r.__year),
   ("__dateRated", .fdate r.__dateRated), ("__releaseDate", .fdate r.__releaseDate)]

/-- `{ ...r, __title: …, …, __releaseDate: … }`: the source entries
followed by the twelve derived entries.  A later entry with the same key
overrides an earlier one, which `objGet` realises by taking the last
binding. -/
def entriesOf (r : Row) : Obj :=
  r.src.map (fun kv => (kv.1, FieldVal.fstr kv.2)) ++ derivedEntries r

/-- Property lookup on a spread object: the last binding of a key wins. -/
def objGet (o : Obj) (k : String) : Option FieldVal :=
  (o.reverse.find? (fun kv => kv.1 == k)).map (·.2)

/-- A parsed/unparsed CSV at the structural level: the header field list
and one value row per record. -/
structure CSVTable where
  fields : List String
  data : List (List (Option FieldVal))
deriving DecidableEq

/-- Modelled from the spec: `Papa.unparse` (external library, no source in
this repository) on an array of objects, per its documented behaviour —
the header row is the first object's key list and each record lists that
object's values under those keys.  The textual CSV layer is the library's
concern and is left structural. -/
def papaUnparse (rows : List Obj) : CSVTable :=
  match rows with
  | [] => ⟨[], []⟩
  | r :: _ => ⟨r.map (·.1), rows.map (fun o => (r.map (·.1)).map (objGet o))⟩

/-- Modelled from the spec: `Papa.parse` with `header: true` (external
library) at the same structural level — each data row is re-keyed by the
header fields. -/
def papaParse (t : CSVTable) : List Obj :=
  t.data.map (fun vals =>
    (t.fields.zip vals).filterMap (fun p => p.2.map (fun v => (p.1, v))))

/-- `downloadCSVFromRows` (src/app/page.tsx lines 27–30): the rows are
serialized with `Papa.unparse`; the blob/anchor download mechanics carry
no data semantics. -/
def downloadCSVFromRows (rows : List Obj) : CSVTable := papaUnparse rows

/-- A key "begins with `__`" (statement-side predicate, kernel-reducible
counterpart of `String.startsWith "__"`). -/
def startsUnderscores (k : String) : Bool := isPrefixL ['_', '_'] k.data

/-- Membership test for one histogram bucket position `j` (0-based), as
the source indexes it: a non-null integral rating in `[1,10]` with
`rating - 1 = j`. -/
def inBucket (j : Nat) : Option ℚ → Bool
  | some q => decide (1 ≤ q) && decide (q ≤ 10) && decide (q.den = 1) &&
      (q.num.toNat - 1 == j)
  | none => false

/-- `dirMap.get(d)` on the insertion-ordered accumulator. -/
def lookupDir (a : DirAcc) (d : String) : Option (ℚ × Nat) :=
  (a.find? (fun e => e.1 == d)).map (·.2)

/-- Number of records whose non-null rating credits director `d`
(statement-side counting function for claim C6). -/
def countCredits (rows : List Row) (d : String) : Nat :=
  rows.countP (fun r => r.__yourRating.isSome && decide (d ∈ splitTrim r.__directors))

/-- Sum of the non-null ratings of the records crediting director `d`. -/
def sumCredits (rows : List Row) (d : String) : ℚ :=
  (rows.filterMap (fun r =>
    match r.__yourRating with
    | some q => if d ∈ splitTrim r.__directors then some q else none
    | none => none)).sum

/-- A bare record carrying only a directors string and a rating, for the
concrete scenario of claim C6. -/
def sampleRec (dir : String) (rating : Option ℚ) : Row :=
  ⟨[], "", "", "", [], dir, "", rating, none, none, none, none, none⟩

/-- The `{director, avg, n}` summary the scan builds from a qualifying
map entry. -/
def mkTop (e : String × ℚ × Nat) : String × ℚ × Nat :=
  (e.1, e.2.1 / (e.2.2 : ℚ), e.2.2)

-- ====================================================================
-- Helper lemmas
-- ====================================================================

/-- On a string input, `parseNumber` returns finite numbers only: the
`Number.isFinite` guard filters out `NaN` and the infinities. -/
theorem parseNumber_vstr_fin (s : String) (w : JSNum)
    (h : parseNumber (.vstr s) = some w) : ∃ q : ℚ, w = .fin q := by
  cases hj : jsNumberOf (stripNonNumeric s) with
  | fin q => refine ⟨q, ?_⟩; simp [parseNumber, hj] at h; exact h.symm
  | nan => simp [parseNumber, hj] at h
  | inf => simp [parseNumber, hj] at h
  | ninf => simp [parseNumber, hj] at h

/-- `uniqueDays` of a constant non-empty list is the singleton. -/
theorem uniqueDays_const (l : List Int) (d : Int) (hne : l ≠ [])
    (hall : ∀ x ∈ l, x = d) : uniqueDays l = [d] := by
  have aux : ∀ (xs : List Int), (∀ x ∈ xs, x = d) →
      xs.foldl (fun acc x => insertDay x acc) [d] = [d] := by
    intro xs
    induction xs with
    | nil => intro _; rfl
    | cons x rest ih =>
      intro hx
      have hxd : x = d := hx x (List.mem_cons_self x rest)
      have : insertDay x [d] = [d] := by
        subst hxd; simp [insertDay]
      simp only [List.foldl_cons, this]
      exact ih fun y hy => hx y (List.mem_cons_of_mem x hy)
  match l, hne with
  | x :: rest, _ =>
    have hxd : x = d := hall x (List.mem_cons_self x rest)
    have h0 : insertDay x [] = [x] := rfl
    simp only [uniqueDays, List.foldl_cons, h0, hxd]
    exact aux rest fun y hy => hall y (List.mem_cons_of_mem x hy)


-- ====================================================================
-- Claim theorems
-- ====================================================================

/-- **C4**: over unique rating days, a data set whose `dateRated` values
fall on exactly one unique day has longest streak 1 and longest gap 0;
and for rating days 2024-01-01, 2024-01-02, 2024-01-03 and 2024-02-01 the
longest streak is 3 days ending 2024-01-03 and the longest gap is 29 days
between 2024-01-03 and 2024-02-01. -/
theorem C4_streak_gap :
    (∀ (l : List Int) (d : Int), l ≠ [] → (∀ x ∈ l, x = d) →
      (longestStreak l).1 = 1 ∧ (longestGap l).1 = 0) ∧
    longestStreak [daysFromCivil 2024 1 1, daysFromCivil 2024 1 2,
        daysFromCivil 2024 1 3, daysFromCivil 2024 2 1] =
      (3, some (daysFromCivil 2024 1 1), some (daysFromCivil 2024 1 3)) ∧
    longestGap [daysFromCivil 2024 1 1, daysFromCivil 2024 1 2,
        daysFromCivil 2024 1 3, daysFromCivil 2024 2 1] =
      (29, some (daysFromCivil 2024 1 3), some (daysFromCivil 2024 2 1)) ∧
    daysFromCivil 2024 2 1 - daysFromCivil 2024 1 3 = 29 := by
  refine ⟨?_, by decide, by decide, by decide⟩
  intro l d hne hall
  have hu := uniqueDays_const l d hne hall
  constructor
  · simp [longestStreak, hu, streakLoop]
  · simp [longestGap, hu]

/-- Witness for `C4_streak_gap` at the concrete two-element one-day list `[5, 5]`. -/
theorem C4_witness :
    (longestStreak [(5 : Int), 5]).1 = 1 ∧ (longestGap [(5 : Int), 5]).1 = 0 :=
  C4_streak_gap.1 [5, 5] 5 (by decide) (by decide)

/-- **C10**: a number input is returned by `parseNumber` unchanged, with no
stripping and no finiteness check, so `NaN` and `Infinity` pass through;
the null-on-unparseable rule applies only to string inputs (on which the
result is always a finite number or `null`). -/
theorem C10_number_passthrough :
    (∀ n : JSNum, parseNumber (.vnum n) = some n) ∧
    parseNumber (.vnum .nan) = some .nan ∧
    parseNumber (.vnum .inf) = some .inf ∧
    parseNumber .vnull = none ∧
    (∀ (s : String) (w : JSNum), parseNumber (.vstr s) = some w → ∃ q : ℚ, w = .fin q) :=
  ⟨fun _ => rfl, rfl, rfl, rfl, fun s w h => parseNumber_vstr_fin s w h⟩

/-- Witness for `C10_number_passthrough` at the string input `"7"`. -/
theorem C10_witness :
    parseNumber (.vstr "7") = some (.fin 7) ∧ ∃ q : ℚ, JSNum.fin 7 = .fin q :=
  ⟨by simp [parseNumber, jsNumberOf, stripNonNumeric, keepNumChar, parseMantissa,
      splitDot, digitsVal, isDigitList],
   C10_number_passthrough.2.2.2.2 "7" (.fin 7)
     (by simp [parseNumber, jsNumberOf, stripNonNumeric, keepNumChar, parseMantissa,
        splitDot, digitsVal, isDigitList])⟩



theorem ceil_div_eq (c p : ℕ) (hp : 0 < p) :
    ⌈(c : ℚ) / (p : ℚ)⌉ = ((c + p - 1) / p : ℕ) := by
  have hp' : (0 : ℚ) < (p : ℚ) := by exact_mod_cast hp
  rcases Nat.eq_zero_or_pos c with hc | hc
  · subst hc
    have h1 : (0 + p - 1) / p = 0 := Nat.div_eq_of_lt (by omega)
    rw [h1]; simp
  · have h2 : (c + p - 1) / p = (c - 1) / p + 1 := by
      rw [show c + p - 1 = (c - 1) + p by omega, Nat.add_div_right _ hp]
    set a := (c - 1) / p with ha
    have hd := Nat.div_add_mod (c - 1) p
    have hm : (c - 1) % p < p := Nat.mod_lt _ hp
    have h3 : a * p < c :=
      lt_of_le_of_lt (Nat.div_mul_le_self (c - 1) p) (Nat.sub_lt hc Nat.one_pos)
    have h5 : c - 1 < p * a + p := by rw [← hd]; exact Nat.add_lt_add_left hm _
    have h4 : c ≤ (a + 1) * p := by
      rw [Nat.succ_mul, Nat.mul_comm]; exact Nat.le_of_pred_lt h5
    rw [h2, Int.ceil_eq_iff]
    constructor
    · rw [lt_div_iff₀ hp']
      calc (((a + 1 : ℕ) : ℚ) - 1) * p = ((a * p : ℕ) : ℚ) := by push_cast; ring
        _ < c := by exact_mod_cast h3
    · rw [div_le_iff₀ hp']
      calc (c : ℚ) ≤ (((a + 1) * p : ℕ) : ℚ) := by exact_mod_cast h4
        _ = ((a + 1 : ℕ) : ℚ) * p := by push_cast; ring

/-- **C7**: `totalPages = max(1, ceil(count / pageSize))` (stated against
the rational ceiling), a current page exceeding the recomputed total is
clamped to it, and concretely 205 records with page size 100 give 3 total
pages with page 5 clamped to page 3. -/
theorem C7_pagination :
    (∀ count pageSize : ℕ, 0 < pageSize →
      ((totalPages count pageSize : ℤ) = max 1 ⌈(count : ℚ) / (pageSize : ℚ)⌉ ∧
        ∀ page : ℕ, totalPages count pageSize < page →
          clampPage page (totalPages count pageSize) = totalPages count pageSize)) ∧
    totalPages 205 100 = 3 ∧ clampPage 5 (totalPages 205 100) = 3 := by
  refine ⟨?_, by decide, by decide⟩
  intro c p hp
  constructor
  · rw [ceil_div_eq c p hp]
    unfold totalPages
    push_cast [Nat.cast_max]
    rfl
  · intro page hpage; unfold clampPage; rw [if_pos hpage]

/-- Witness for `C7_pagination` at 205 records, page size 100, page 5. -/
theorem C7_witness :
    0 < 100 ∧ totalPages 205 100 < 5 ∧
      clampPage 5 (totalPages 205 100) = totalPages 205 100 :=
  ⟨by decide, by decide, (C7_pagination.1 205 100 (by decide)).2 5 (by decide)⟩



/-- Characterization of `null` results of the numeric parse used by the
normalizer: the chain lookup is absent, or its value does not convert to a
finite number after stripping.  (An empty stripped string converts to `0`
and is therefore *not* a `null` case — see `parseNum_empty_strip`.) -/
theorem parseNum_none_iff (o : Option String) :
    parseNum o = none ↔
      o = none ∨ ∃ s, o = some s ∧ ∀ q : ℚ, jsNumberOf (stripNonNumeric s) ≠ JSNum.fin q := by
  cases o with
  | none => simp [parseNum, parseNumber, jsValOf]
  | some s =>
    constructor
    · intro h
      refine Or.inr ⟨s, rfl, fun q hq => ?_⟩
      simp [parseNum, parseNumber, jsValOf, hq] at h
    · rintro (h | ⟨s', hs', hall⟩)
      · exact absurd h (Option.some_ne_none s)
      · injection hs' with hss
        subst hss
        cases hj : jsNumberOf (stripNonNumeric s) with
        | fin q => exact absurd hj (hall q)
        | nan => simp [parseNum, parseNumber, jsValOf, hj]
        | inf => simp [parseNum, parseNumber, jsValOf, hj]
        | ninf => simp [parseNum, parseNumber, jsValOf, hj]

/-- `Number("") = 0`: on a value whose stripped form is empty, the
page.tsx `parseNumber` produces `0`, not `null`. -/
theorem parseNum_empty_strip (s : String) (h : stripNonNumeric s = "") :
    parseNum (some s) = some 0 := by
  simp [parseNum, parseNumber, jsValOf, jsNumberOf, h]

/-- The part_000 `parseNumber` rejects an empty cleaned string. -/
theorem parseNumberAlt_empty_strip (s : String) (h : stripNonNumeric s = "") :
    parseNumberAlt (.vstr s) = none := by
  simp [parseNumberAlt, h]

/-- **C1 counterexample**: the raw value `"N/A"` strips to `""`, which the
claim says must normalize to `null`; the page.tsx `parseNumber` has no
empty-string check and JavaScript's `Number("") = 0`, so the normalized
`__year` is `0`, not `null`. -/
theorem C1_counterexample :
    (normalize (fun _ => none) [("Year", "N/A")] 0).__year = some 0 ∧
    (normalize (fun _ => none) [("Year", "N/A")] 0).__year ≠ none ∧
    stripNonNumeric "N/A" = "" := by
  refine ⟨by decide, by decide, by decide⟩

/-- **C1 (amended)**: for every raw row, a normalized numeric field is
`null` iff the source value was absent *or* present but not converting to
a finite number after stripping; a value whose stripped form is empty
(e.g. `"N/A"`) converts to `0` and is **not** `null` (only the alternate
part_000 `parseNumber` returns `null` there, as the original claim
stated); a stripped string that parses to a non-finite number (e.g.
`"7-8"`, which is `NaN`) is `null`. -/
theorem C1_amended_null_parsing :
    (∀ (dp : String → Option Int) (r : RawRow) (i : Nat),
      ((normalize dp r i).__yourRating = none ↔
        (lookupChain r ["Your Rating", "your rating", "rating"] = none ∨
          ∃ s, lookupChain r ["Your Rating", "your rating", "rating"] = some s ∧
            ∀ q : ℚ, jsNumberOf (stripNonNumeric s) ≠ JSNum.fin q)) ∧
      ((normalize dp r i).__imdbRating = none ↔
        (lookupChain r ["IMDb Rating", "imdb rating"] = none ∨
          ∃ s, lookupChain r ["IMDb Rating", "imdb rating"] = some s ∧
            ∀ q : ℚ, jsNumberOf (stripNonNumeric s) ≠ JSNum.fin q)) ∧
      ((normalize dp r i).__runtime = none ↔
        (lookupChain r ["Runtime (mins)", "runtime"] = none ∨
          ∃ s, lookupChain r ["Runtime (mins)", "runtime"] = some s ∧
            ∀ q : ℚ, jsNumberOf (stripNonNumeric s) ≠ JSNum.fin q)) ∧
      ((normalize dp r i).__year = none ↔
        (lookupChain r ["Year", "year"] = none ∨
          ∃ s, lookupChain r ["Year", "year"] = some s ∧
            ∀ q : ℚ, jsNumberOf (stripNonNumeric s) ≠ JSNum.fin q))) ∧
    (∀ s : String, stripNonNumeric s = "" → parseNum (some s) = some 0) ∧
    (∀ s : String, stripNonNumeric s = "" → parseNumberAlt (.vstr s) = none) ∧
    parseNum (some "N/A") = some 0 ∧ parseNum (some "7-8") = none := by
  refine ⟨fun dp r i => ⟨?_, ?_, ?_, ?_⟩,
    parseNum_empty_strip, parseNumberAlt_empty_strip, by decide, by decide⟩
  · exact parseNum_none_iff _
  · exact parseNum_none_iff _
  · exact parseNum_none_iff _
  · exact parseNum_none_iff _

/-- Witness for `C1_amended_null_parsing` at the all-letter string
`"abc"`, whose stripped form is empty. -/
theorem C1_witness :
    stripNonNumeric "abc" = "" ∧ parseNum (some "abc") = some 0 ∧
      parseNumberAlt (.vstr "abc") = none :=
  ⟨by decide, C1_amended_null_parsing.2.1 "abc" (by decide),
    C1_amended_null_parsing.2.2.1 "abc" (by decide)⟩



/-- Every token produced by the genre split is non-empty
(`filter(Boolean)` drops empty strings). -/
theorem splitGenres_nonempty (s : String) : ∀ g ∈ splitGenres s, g ≠ "" := by
  intro g hg
  unfold splitGenres at hg
  split at hg
  · exact absurd hg (List.not_mem_nil g)
  · have := List.of_mem_filter hg
    simpa using this

/-- **C8**: `normalize` is total — it is a total Lean function of any raw
row (arbitrary keys and values) and index, and the `__genres` field is
always a (possibly empty) list: absent or empty source values give `[]`,
and every member of the list is a non-empty trimmed token, never a null
placeholder. -/
theorem C8_normalize_total :
    ∀ (dp : String → Option Int) (r : RawRow) (i : Nat),
      (normalize dp r i).__genres =
        splitGenres ((lookupChain r ["Genres", "genres"]).getD "") ∧
      (∀ g ∈ (normalize dp r i).__genres, g ≠ "") ∧
      (lookupChain r ["Genres", "genres"] = none → (normalize dp r i).__genres = []) ∧
      (lookupChain r ["Genres", "genres"] = some "" → (normalize dp r i).__genres = []) := by
  intro dp r i
  refine ⟨rfl, splitGenres_nonempty _, fun h => ?_, fun h => ?_⟩
  · show splitGenres ((lookupChain r ["Genres", "genres"]).getD "") = []
    rw [h]; rfl
  · show splitGenres ((lookupChain r ["Genres", "genres"]).getD "") = []
    rw [h]; rfl

/-- Witness for `C8_normalize_total` on a row with an unrelated column and
no genre column. -/
theorem C8_witness :
    (normalize (fun _ => none) [("Mystery Column", "??")] 7).__genres =
        splitGenres ((lookupChain [("Mystery Column", "??")] ["Genres", "genres"]).getD "") ∧
      (normalize (fun _ => none) [("Mystery Column", "??")] 7).__genres = [] :=
  ⟨(C8_normalize_total (fun _ => none) [("Mystery Column", "??")] 7).1,
    (C8_normalize_total (fun _ => none) [("Mystery Column", "??")] 7).2.2.1 (by decide)⟩



theorem find?_append_some {α : Type} {l₁ : List α} {p : α → Bool} {x : α}
    (h : l₁.find? p = some x) (l₂ : List α) : (l₁ ++ l₂).find? p = some x := by
  induction l₁ with
  | nil => simp at h
  | cons a l ih =>
    cases hpa : p a with
    | true =>
      rw [List.find?_cons_of_pos _ hpa] at h
      rw [List.cons_append, List.find?_cons_of_pos _ hpa]
      exact h
    | false =>
      rw [List.find?_cons_of_neg _ (by simp [hpa])] at h
      rw [List.cons_append, List.find?_cons_of_neg _ (by simp [hpa])]
      exact ih h

theorem find?_append_none {α : Type} {l₁ : List α} {p : α → Bool}
    (h : l₁.find? p = none) (l₂ : List α) : (l₁ ++ l₂).find? p = l₂.find? p := by
  induction l₁ with
  | nil => simp
  | cons a l ih =>
    cases hpa : p a with
    | true => rw [List.find?_cons_of_pos _ hpa] at h; cases h
    | false =>
      rw [List.find?_cons_of_neg _ (by simp [hpa])] at h
      rw [List.cons_append, List.find?_cons_of_neg _ (by simp [hpa])]
      exact ih h

/-- In an entry list with pairwise distinct keys, looking up the key of a
member finds exactly that member. -/
theorem find?_key_of_mem {β : Type} {l : List (String × β)}
    (hnd : (l.map Prod.fst).Nodup) {kv : String × β} (h : kv ∈ l) :
    l.find? (fun e => e.1 == kv.1) = some kv := by
  induction l with
  | nil => simp at h
  | cons e rest ih =>
    rw [List.map_cons, List.nodup_cons] at hnd
    rcases List.mem_cons.mp h with he | hrest
    · subst he
      rw [List.find?_cons_of_pos _ (by simp)]
    · have hne : ¬ (e.1 == kv.1) = true := by
        intro heq
        rw [beq_iff_eq] at heq
        exact hnd.1 (heq ▸ List.mem_map_of_mem Prod.fst hrest)
      have hfalse : (e.1 == kv.1) = false := eq_false_of_ne_true hne
      have hstep : List.find? (fun x => x.1 == kv.1) (e :: rest) =
          List.find? (fun x => x.1 == kv.1) rest := by
        simp [List.find?_cons, hfalse]
      rw [hstep]
      exact ih hnd.2 hrest

/-- Every derived key begins with `__`. -/
theorem derived_keys_internal (rec : Row) :
    ∀ k ∈ (derivedEntries rec).map Prod.fst, startsUnderscores k = true := by
  intro k hk
  simp [derivedEntries] at hk
  rcases hk with h | h | h | h | h | h | h | h | h | h | h | h <;> subst h <;> decide

/-- **C9**: the object spread keeps every original column of a raw row
whose keys do not begin with `__` unchanged, and adds the twelve derived
fields under fresh `__`-prefixed keys alongside them. -/
theorem C9_passthrough :
    ∀ (dp : String → Option Int) (r : RawRow) (i : Nat),
      (∀ kv ∈ r, startsUnderscores kv.1 = false) →
      (r.map Prod.fst).Nodup →
      (∀ kv ∈ r, objGet (entriesOf (normalize dp r i)) kv.1 = some (.fstr kv.2)) ∧
      (∀ e ∈ derivedEntries (normalize dp r i),
        objGet (entriesOf (normalize dp r i)) e.1 = some e.2) ∧
      (derivedEntries (normalize dp r i)).map Prod.fst =
        ["__title", "__type", "__url", "__genres", "__directors", "__tconst",
         "__yourRating", "__imdbRating", "__runtime", "__year",
         "__dateRated", "__releaseDate"] ∧
      (∀ k ∈ (derivedEntries (normalize dp r i)).map Prod.fst,
        startsUnderscores k = true) := by
  intro dp r i hext hnd
  set rec := normalize dp r i with hrec
  have hsrc : rec.src = r := rfl
  have hdnd : ((derivedEntries rec).map Prod.fst).Nodup := by
    show (["__title", "__type", "__url", "__genres", "__directors", "__tconst",
      "__yourRating", "__imdbRating", "__runtime", "__year",
      "__dateRated", "__releaseDate"] : List String).Nodup
    decide
  refine ⟨?_, ?_, rfl, derived_keys_internal rec⟩
  · intro kv hkv
    have hder : (derivedEntries rec).reverse.find? (fun e => e.1 == kv.1) = none := by
      rw [List.find?_eq_none]
      intro e he hpe
      rw [beq_iff_eq] at hpe
      have hint : startsUnderscores e.1 = true :=
        derived_keys_internal rec e.1
          (List.mem_map_of_mem Prod.fst (List.mem_reverse.mp he))
      rw [hpe] at hint
      rw [hext kv hkv] at hint
      cases hint
    have hmem : (kv.1, FieldVal.fstr kv.2) ∈
        (rec.src.map (fun kv => (kv.1, FieldVal.fstr kv.2))).reverse := by
      rw [List.mem_reverse, hsrc]
      exact List.mem_map_of_mem _ hkv
    have hsnd : ((rec.src.map (fun kv => (kv.1, FieldVal.fstr kv.2))).reverse.map
        Prod.fst).Nodup := by
      rw [List.map_reverse, List.nodup_reverse, hsrc, List.map_map]
      exact hnd
    have hfind := find?_key_of_mem hsnd hmem
    show ((entriesOf rec).reverse.find? (fun e => e.1 == kv.1)).map (·.2) =
      some (FieldVal.fstr kv.2)
    rw [entriesOf, List.reverse_append, find?_append_none hder, hfind]
    rfl
  · intro e he
    have hfind : (derivedEntries rec).reverse.find? (fun x => x.1 == e.1) = some e :=
      find?_key_of_mem (by rw [List.map_reverse, List.nodup_reverse]; exact hdnd)
        (List.mem_reverse.mpr he)
    show ((entriesOf rec).reverse.find? (fun x => x.1 == e.1)).map (·.2) = some e.2
    rw [entriesOf, List.reverse_append, find?_append_some hfind]
    rfl

/-- Witness for `C9_passthrough` on the one-column row `[("Title","A")]`. -/
theorem C9_witness :
    objGet (entriesOf (normalize (fun _ => none) [("Title", "A")] 0)) "Title" =
        some (.fstr "A") ∧
      objGet (entriesOf (normalize (fun _ => none) [("Title", "A")] 0)) "__title" =
        some (.fstr "A") :=
  ⟨(C9_passthrough (fun _ => none) [("Title", "A")] 0 (by decide) (by decide)).1
      ("Title", "A") (by decide),
    (C9_passthrough (fun _ => none) [("Title", "A")] 0 (by decide) (by decide)).2.1
      ("__title", .fstr "A") (by decide)⟩



theorem foldl_histStep_none (l : List (Option ℚ)) : l.foldl histStep none = none := by
  induction l with
  | nil => rfl
  | cons r rest ih => simpa [histStep] using ih

theorem length_bumpAt (bins : List (Nat × Nat)) (i : Nat) :
    (bumpAt bins i).length = bins.length := by
  induction bins generalizing i with
  | nil => rfl
  | cons b bs ih =>
    cases i with
    | zero => rfl
    | succ n => simpa [bumpAt] using ih n

theorem fst_bumpAt (bins : List (Nat × Nat)) (i : Nat) :
    (bumpAt bins i).map Prod.fst = bins.map Prod.fst := by
  induction bins generalizing i with
  | nil => rfl
  | cons b bs ih =>
    cases i with
    | zero => rfl
    | succ n => simpa [bumpAt] using ih n

theorem getD_bumpAt (bins : List (Nat × Nat)) (i j : Nat) :
    (bumpAt bins i).getD j (0, 0) =
      if j = i ∧ j < bins.length then
        ((bins.getD j (0, 0)).1, (bins.getD j (0, 0)).2 + 1)
      else bins.getD j (0, 0) := by
  induction bins generalizing i j with
  | nil => simp [bumpAt]
  | cons b bs ih =>
    cases i with
    | zero =>
      cases j with
      | zero => simp [bumpAt]
      | succ m => simp [bumpAt]
    | succ n =>
      cases j with
      | zero => simp [bumpAt]
      | succ m =>
        have := ih n m
        simpa [bumpAt, Nat.succ_lt_succ_iff] using this



/-- The histogram fold, characterised bucket by bucket, for inputs whose
in-range ratings are all integral. -/
theorem histAux : ∀ l : List (Option ℚ),
    (∀ q : ℚ, some q ∈ l → 1 ≤ q → q ≤ 10 → q.den = 1) →
    ∀ bins : List (Nat × Nat), ∃ bins',
      l.foldl histStep (some bins) = some bins' ∧
      bins'.length = bins.length ∧
      bins'.map Prod.fst = bins.map Prod.fst ∧
      ∀ j, bins'.getD j (0, 0) =
        if j < bins.length then
          ((bins.getD j (0, 0)).1, (bins.getD j (0, 0)).2 + l.countP (inBucket j))
        else (0, 0) := by
  intro l
  induction l with
  | nil =>
    intro _ bins
    refine ⟨bins, rfl, rfl, rfl, fun j => ?_⟩
    by_cases hj : j < bins.length
    · simp [hj]
    · rw [if_neg hj]
      exact List.getD_eq_default _ _ (Nat.le_of_not_lt hj)
  | cons r rest ih =>
    intro hint bins
    have hrest : ∀ q : ℚ, some q ∈ rest → 1 ≤ q → q ≤ 10 → q.den = 1 :=
      fun q hq => hint q (List.mem_cons_of_mem _ hq)
    cases r with
    | none =>
      obtain ⟨bins', h1, h2, h3, h4⟩ := ih hrest bins
      refine ⟨bins', h1, h2, h3, fun j => ?_⟩
      rw [h4 j]
      by_cases hj : j < bins.length <;>
        simp [hj, List.countP_cons, inBucket]
    | some q =>
      by_cases hq : 1 ≤ q ∧ q ≤ 10
      · have hden : q.den = 1 := hint q (List.mem_cons_self _ _) hq.1 hq.2
        have step : histStep (some bins) (some q) =
            some (bumpAt bins (q.num.toNat - 1)) := by
          simp [histStep, hq, hden]
        obtain ⟨bins', h1, h2, h3, h4⟩ := ih hrest (bumpAt bins (q.num.toNat - 1))
        refine ⟨bins', ?_, ?_, ?_, fun j => ?_⟩
        · rw [List.foldl_cons, step]; exact h1
        · rw [h2, length_bumpAt]
        · rw [h3, fst_bumpAt]
        · rw [h4 j, length_bumpAt, getD_bumpAt]
          have hb : inBucket j (some q) = (q.num.toNat - 1 == j) := by
            simp [inBucket, hq.1, hq.2, hden]
          by_cases hj : j < bins.length
          · by_cases hji : j = q.num.toNat - 1
            · subst hji
              have hbj : inBucket (q.num.toNat - 1) (some q) = true := by
                rw [hb, Nat.beq_eq_true_eq]
              simp [hj, List.countP_cons, hbj, Prod.mk.injEq]
              omega
            · have hbj : inBucket j (some q) = false := by
                rw [hb, beq_eq_false_iff_ne]; omega
              simp [hj, hji, List.countP_cons, hbj]
          · simp [hj, List.countP_cons]
      · have step : histStep (some bins) (some q) = some bins := by
          rcases not_and_or.mp hq with h1q | h2q
          · simp [histStep, h1q]
          · simp [histStep, h2q]
        obtain ⟨bins', h1, h2, h3, h4⟩ := ih hrest bins
        refine ⟨bins', ?_, h2, h3, fun j => ?_⟩
        · rw [List.foldl_cons, step]; exact h1
        · rw [h4 j]
          have hbj : inBucket j (some q) = false := by
            by_cases h1q : 1 ≤ q
            · have h2q : ¬ q ≤ 10 := fun h2 => hq ⟨h1q, h2⟩
              simp [inBucket, h1q, h2q]
            · simp [inBucket, h1q]
          by_cases hj : j < bins.length <;> simp [hj, List.countP_cons, hbj]



/-- A successful histogram fold preserves bucket labels and bucket
count-list length. -/
theorem histFold_preserve : ∀ (l : List (Option ℚ)) (acc bins' : List (Nat × Nat)),
    l.foldl histStep (some acc) = some bins' →
    bins'.map Prod.fst = acc.map Prod.fst ∧ bins'.length = acc.length := by
  intro l
  induction l with
  | nil =>
    intro acc bins' h
    injection h with h
    subst h
    exact ⟨rfl, rfl⟩
  | cons r rest ih =>
    intro acc bins' h
    rw [List.foldl_cons] at h
    cases r with
    | none => exact ih acc bins' h
    | some q =>
      by_cases hq : 1 ≤ q ∧ q ≤ 10
      · by_cases hden : q.den = 1
        · have hstep : histStep (some acc) (some q) =
              some (bumpAt acc (q.num.toNat - 1)) := by simp [histStep, hq, hden]
          rw [hstep] at h
          obtain ⟨hf, hl⟩ := ih _ bins' h
          rw [fst_bumpAt] at hf
          rw [length_bumpAt] at hl
          exact ⟨hf, hl⟩
        · have hstep : histStep (some acc) (some q) = none := by
            simp [histStep, hq, hden]
          rw [hstep, foldl_histStep_none] at h
          cases h
      · have hstep : histStep (some acc) (some q) = some acc := by
          rcases not_and_or.mp hq with h1q | h2q
          · simp [histStep, h1q]
          · simp [histStep, h2q]
        rw [hstep] at h
        exact ih acc bins' h

/-- A fractional in-range rating anywhere in the input crashes the
histogram computation. -/
theorem histFrac_none : ∀ (l : List (Option ℚ)) (q : ℚ), some q ∈ l →
    1 ≤ q → q ≤ 10 → q.den ≠ 1 →
    ∀ acc : List (Nat × Nat), l.foldl histStep (some acc) = none := by
  intro l
  induction l with
  | nil => intro q hq; simp at hq
  | cons r rest ih =>
    intro q hq h1 h2 hden acc
    rw [List.foldl_cons]
    rcases List.mem_cons.mp hq with hhead | htail
    · rw [← hhead]
      have hstep : histStep (some acc) (some q) = none := by
        simp [histStep, h1, h2, hden]
      rw [hstep]
      exact foldl_histStep_none rest
    · cases hstep : histStep (some acc) r with
      | none => exact foldl_histStep_none rest
      | some acc' => exact ih q htail h1 h2 hden acc'

/-- `Math.round` of an integral rational is its numerator. -/
theorem jsRound_int (q : ℚ) (h : q.den = 1) : jsRound q = q.num := by
  have hq : ((q.num : ℤ) : ℚ) = q := (Rat.den_eq_one_iff q).mp h
  have hhalf : ⌊(1 / 2 : ℚ)⌋ = 0 := by
    rw [Int.floor_eq_iff]
    constructor <;> norm_num
  calc jsRound q = ⌊((q.num : ℤ) : ℚ) + 1 / 2⌋ := by rw [jsRound, hq]
    _ = q.num + ⌊(1 / 2 : ℚ)⌋ := Int.floor_int_add _ _
    _ = q.num := by rw [hhalf, add_zero]

/-- On integral in-range inputs, the source's 0-based bucket test agrees
with the claim's `round`-based bucket test. -/
theorem inBucket_eq_claimed (j : Nat) (l : List (Option ℚ))
    (hint : ∀ q : ℚ, some q ∈ l → 1 ≤ q → q ≤ 10 → q.den = 1) :
    ∀ r? ∈ l, inBucket j r? =
      (match r? with
        | some q => decide (1 ≤ q) && decide (q ≤ 10) && (jsRound q == (j + 1 : ℤ))
        | none => false) := by
  intro r? hr
  cases r? with
  | none => rfl
  | some q =>
    by_cases h1 : 1 ≤ q
    · by_cases h2 : q ≤ 10
      · have hden : q.den = 1 := hint q hr h1 h2
        have hnum : ((q.num : ℤ) : ℚ) = q := (Rat.den_eq_one_iff q).mp hden
        have hn1 : 1 ≤ q.num := by
          have : ((1 : ℤ) : ℚ) ≤ ((q.num : ℤ) : ℚ) := by rw [hnum]; exact_mod_cast h1
          exact_mod_cast this
        have hround : jsRound q = q.num := jsRound_int q hden
        show (_ && _ && _ && _) = (_ && _ && _)
        simp only [hden, decide_True, Bool.and_true, hround]
        rw [Bool.eq_iff_iff]
        simp only [Bool.and_eq_true, beq_iff_eq]
        constructor
        · rintro ⟨⟨ha, hb⟩, hc⟩
          exact ⟨⟨ha, hb⟩, by omega⟩
        · rintro ⟨⟨ha, hb⟩, hc⟩
          exact ⟨⟨ha, hb⟩, by omega⟩
      · have : decide (q ≤ 10) = false := by simp [h2]
        simp [inBucket, this]
    · have : decide (1 ≤ q) = false := by simp [h1]
      simp [inBucket, this]



/-- The initial buckets, position by position. -/
theorem initBins_getD : ∀ j : Nat, j < 10 → initBins.getD j (0, 0) = (j + 1, 0) := by
  decide

/-- The claim-side bucket predicate of `claimedRatingHistogram`, for one
0-based position. -/
theorem claimed_getD (l : List (Option ℚ)) (j : Nat) (hj : j < 10) :
    (claimedRatingHistogram l).getD j (0, 0) =
      (j + 1, l.countP (fun r? =>
        match r? with
        | some q => decide (1 ≤ q) && decide (q ≤ 10) && (jsRound q == (j + 1 : ℤ))
        | none => false)) := by
  have hlen : j < (claimedRatingHistogram l).length := by
    simpa [claimedRatingHistogram] using hj
  rw [List.getD_eq_getElem _ _ hlen]
  simp [claimedRatingHistogram]

/-- **C3 counterexample**: for the single fractional in-range rating
`3/2`, the claim says bucket `round(3/2) = 2` receives count 1; in the
source, `bins[0.5]` is `undefined` and the `.count` access throws, so the
histogram computation produces no bucket counts at all. -/
theorem C3_counterexample :
    ratingHistogram [some ((3 : ℚ) / 2)] ≠
      some (claimedRatingHistogram [some ((3 : ℚ) / 2)]) ∧
    ratingHistogram [some ((3 : ℚ) / 2)] = none ∧
    claimedRatingHistogram [some ((3 : ℚ) / 2)] =
      [(1, 0), (2, 1), (3, 0), (4, 0), (5, 0), (6, 0), (7, 0), (8, 0), (9, 0), (10, 0)] := by
  have h1 : ratingHistogram [some ((3 : ℚ) / 2)] = none := by
    norm_num [ratingHistogram, histStep, List.foldl]
  refine ⟨by rw [h1]; simp, h1, ?_⟩
  norm_num [claimedRatingHistogram, jsRound, List.countP_cons, List.countP_nil,
    List.range_succ, Int.floor_eq_iff]

/-- **C3 (amended)**: the rating histogram has exactly 10 fixed buckets
labelled 1..10 whenever it is produced; when every non-null rating in
`[1,10]` is an integer, a record contributes to bucket
`round(yourRating) = yourRating` exactly when the rating is non-null and
in `[1,10]` (the claim's description, proved as agreement with
`claimedRatingHistogram`); but a fractional rating in `[1,10]` crashes the
computation (`bins[rating-1]` is `undefined`), so no histogram is
produced at all, instead of the record contributing to the rounded
bucket.  For ratings `[5,5,7,10]`, bucket 5 has count 2, bucket 7 count 1,
bucket 10 count 1, all others 0. -/
theorem C3_amended_histogram :
    (∀ (l : List (Option ℚ)) (bins : List (Nat × Nat)),
      ratingHistogram l = some bins →
      bins.map Prod.fst = (List.range 10).map (· + 1) ∧ bins.length = 10) ∧
    (∀ l : List (Option ℚ),
      (∀ q : ℚ, some q ∈ l → 1 ≤ q → q ≤ 10 → q.den = 1) →
      ratingHistogram l = some (claimedRatingHistogram l)) ∧
    (∀ (l : List (Option ℚ)) (q : ℚ), some q ∈ l → 1 ≤ q → q ≤ 10 →
      q.den ≠ 1 → ratingHistogram l = none) ∧
    ratingHistogram [some 5, some 5, some 7, some 10] =
      some [(1, 0), (2, 0), (3, 0), (4, 0), (5, 2), (6, 0), (7, 1), (8, 0), (9, 0), (10, 1)] := by
  refine ⟨?_, ?_, ?_, by decide⟩
  · intro l bins h
    obtain ⟨hf, hl⟩ := histFold_preserve l initBins bins h
    constructor
    · rw [hf]; decide
    · rw [hl]; decide
  · intro l hint
    obtain ⟨bins', h1, hlen, hfst, hgetD⟩ := histAux l hint initBins
    have hcnt : ∀ j : Nat, l.countP (inBucket j) =
        l.countP (fun r? =>
          match r? with
          | some q => decide (1 ≤ q) && decide (q ≤ 10) && (jsRound q == (j + 1 : ℤ))
          | none => false) := by
      intro j
      exact List.countP_congr (fun a ha => by rw [inBucket_eq_claimed j l hint a ha])
    show l.foldl histStep (some initBins) = some (claimedRatingHistogram l)
    rw [h1]
    congr 1
    have hlen10 : bins'.length = 10 := by rw [hlen]; decide
    have hclen : (claimedRatingHistogram l).length = 10 := by
      simp [claimedRatingHistogram]
    apply List.ext_getElem (by rw [hlen10, hclen])
    intro j hj1 hj2
    have hj : j < 10 := by rwa [hlen10] at hj1
    have hD := hgetD j
    rw [if_pos (by simpa [initBins] using hj)] at hD
    have hinitD : initBins.getD j (0, 0) = (j + 1, 0) := initBins_getD j hj
    rw [hinitD] at hD
    rw [← List.getD_eq_getElem _ (0, 0) hj1, ← List.getD_eq_getElem _ (0, 0) hj2]
    rw [hD, claimed_getD l j hj, hcnt j]
    simp
  · intro l q hq h1 h2 hden
    exact histFrac_none l q hq h1 h2 hden initBins

/-- Witness for `C3_amended_histogram` at the single integral rating
`[some 5]`. -/
theorem C3_witness :
    ratingHistogram [some (5 : ℚ)] =
      some (claimedRatingHistogram [some (5 : ℚ)]) :=
  C3_amended_histogram.2.1 [some 5]
    (fun q hq _ _ => by simp at hq; subst hq; decide)



theorem foldl_min_le (l : List ℚ) (a : ℚ) :
    l.foldl min a ≤ a ∧ ∀ x ∈ l, l.foldl min a ≤ x := by
  induction l generalizing a with
  | nil => exact ⟨le_refl a, fun x hx => absurd hx (List.not_mem_nil x)⟩
  | cons y ys ih =>
    obtain ⟨h1, h2⟩ := ih (min a y)
    refine ⟨le_trans h1 (min_le_left a y), fun x hx => ?_⟩
    rcases List.mem_cons.mp hx with hxy | hxs
    · subst hxy; exact le_trans h1 (min_le_right a x)
    · exact h2 x hxs

theorem le_foldl_max (l : List ℚ) (a : ℚ) :
    a ≤ l.foldl max a ∧ ∀ x ∈ l, x ≤ l.foldl max a := by
  induction l generalizing a with
  | nil => exact ⟨le_refl a, fun x hx => absurd hx (List.not_mem_nil x)⟩
  | cons y ys ih =>
    obtain ⟨h1, h2⟩ := ih (max a y)
    refine ⟨le_trans (le_max_left a y) h1, fun x hx => ?_⟩
    rcases List.mem_cons.mp hx with hxy | hxs
    · subst hxy; exact le_trans (le_max_right a x) h1
    · exact h2 x hxs

/-- Every finite year of the collection lies inside the default
`[allYearsLo, allYearsHi]` range. -/
theorem year_bounds (rows : List Row) (y : ℚ) (hy : y ∈ finiteYears rows) :
    allYearsLo rows ≤ y ∧ y ≤ allYearsHi rows := by
  unfold allYearsLo allYearsHi
  cases hfy : finiteYears rows with
  | nil => rw [hfy] at hy; exact absurd hy (List.not_mem_nil y)
  | cons y0 ys =>
    rw [hfy] at hy
    rcases List.mem_cons.mp hy with h0 | hmem
    · subst h0
      exact ⟨(foldl_min_le ys y).1, (le_foldl_max ys y).1⟩
    · exact ⟨(foldl_min_le ys y0).2 y hmem, (le_foldl_max ys y0).2 y hmem⟩

/-- **C5 counterexample**: a record with normalized `__yourRating = -3`
(raw value `"-3"`), under the neutral filter state (empty query, default
full year range, minimum rating 0, wildcard type, empty genre set), fails
the rating dimension (`-3 >= 0` is false), so the filtered set is not the
full collection. -/
theorem C5_counterexample :
    matchesRec
        (neutralFilter (normalizeAll (fun _ => none) [[("Your Rating", "-3")]]))
        (normalize (fun _ => none) [("Your Rating", "-3")] 0) = false ∧
    filteredRows (normalizeAll (fun _ => none) [[("Your Rating", "-3")]])
        (neutralFilter (normalizeAll (fun _ => none) [[("Your Rating", "-3")]])) ≠
      normalizeAll (fun _ => none) [[("Your Rating", "-3")]] := by
  have hval : (normalize (fun _ => none) [("Your Rating", "-3")] 0).__yourRating =
      some (-3) := by
    simp [normalize, lookupChain, rawGet, parseNum, parseNumber, jsValOf, jsNumberOf,
      stripNonNumeric, parseMantissa, splitDot, digitsVal, isDigitList, keepNumChar,
      List.findSome?]
  have hm : matchesRec
      (neutralFilter (normalizeAll (fun _ => none) [[("Your Rating", "-3")]]))
      (normalize (fun _ => none) [("Your Rating", "-3")] 0) = false := by
    simp [matchesRec, neutralFilter, hval]
  refine ⟨hm, ?_⟩
  show List.filter (matchesRec
      (neutralFilter (normalizeAll (fun _ => none) [[("Your Rating", "-3")]])))
      [normalize (fun _ => none) [("Your Rating", "-3")] 0] ≠
    [normalize (fun _ => none) [("Your Rating", "-3")] 0]
  rw [List.filter_cons, hm]
  simp

/-- **C5 (amended)**: under the neutral filter state, every record whose
`__yourRating` is null or non-negative passes, and when every record in
the collection has a null or non-negative rating, the filtered set equals
the full collection.  (A record with a negative rating fails the
`minYourRating = 0` threshold even in the neutral state, which is what
the counterexample exhibits; the year dimension never excludes anything
because the default range is the collection's own min/max.) -/
theorem C5_amended_neutral_filter :
    (∀ (rows : List Row) (r : Row), r ∈ rows →
      (∀ q : ℚ, r.__yourRating = some q → 0 ≤ q) →
      matchesRec (neutralFilter rows) r = true) ∧
    (∀ rows : List Row,
      (∀ r ∈ rows, ∀ q : ℚ, r.__yourRating = some q → 0 ≤ q) →
      filteredRows rows (neutralFilter rows) = rows) := by
  have hmain : ∀ (rows : List Row) (r : Row), r ∈ rows →
      (∀ q : ℚ, r.__yourRating = some q → 0 ≤ q) →
      matchesRec (neutralFilter rows) r = true := by
    intro rows r hr hq
    have hyear : (match r.__year with
        | none => true
        | some y => decide (allYearsLo rows ≤ y) && decide (y ≤ allYearsHi rows)) = true := by
      cases hy : r.__year with
      | none => rfl
      | some y =>
        have hmem : y ∈ finiteYears rows := List.mem_filterMap.mpr ⟨r, hr, hy⟩
        obtain ⟨hlo, hhi⟩ := year_bounds rows y hmem
        simp [hlo, hhi]
    have hyour : (match r.__yourRating with
        | none => true
        | some q => decide ((0 : ℚ) ≤ q)) = true := by
      cases hv : r.__yourRating with
      | none => rfl
      | some q => simp [hq q hv]
    simp [matchesRec, neutralFilter, hyear, hyour]
    exact Or.inl rfl
  refine ⟨hmain, fun rows hall => ?_⟩
  exact List.filter_eq_self.mpr (fun r hr => hmain rows r hr (hall r hr))

/-- Witness for `C5_amended_neutral_filter` on a one-record collection
with rating 5. -/
theorem C5_witness :
    filteredRows (normalizeAll (fun _ => none) [[("Your Rating", "5")]])
        (neutralFilter (normalizeAll (fun _ => none) [[("Your Rating", "5")]])) =
      normalizeAll (fun _ => none) [[("Your Rating", "5")]] :=
  C5_amended_neutral_filter.2 (normalizeAll (fun _ => none) [[("Your Rating", "5")]])
    (by
      intro r hr q hqv
      simp [normalizeAll, normalizeFrom] at hr
      subst hr
      simp [normalize, lookupChain, rawGet, parseNum, parseNumber, jsValOf, jsNumberOf,
        stripNonNumeric, parseMantissa, splitDot, digitsVal, isDigitList, keepNumChar,
        List.findSome?] at hqv
      rw [← hqv]
      norm_num)



theorem lookupDir_cons (e : String × ℚ × Nat) (rest : DirAcc) (d : String) :
    lookupDir (e :: rest) d = if e.1 = d then some e.2 else lookupDir rest d := by
  by_cases h : e.1 = d
  · simp [lookupDir, List.find?_cons, h]
  · simp [lookupDir, List.find?_cons, h]

theorem lookupDir_addCredit (d : String) (q : ℚ) (d' : String) :
    ∀ a : DirAcc,
      lookupDir (addCredit a d q) d' =
        if d' = d then
          match lookupDir a d with
          | none => some (q, 1)
          | some (s, n) => some (s + q, n + 1)
        else lookupDir a d' := by
  intro a
  induction a with
  | nil =>
    by_cases h : d' = d
    · subst h; simp [addCredit, lookupDir_cons, lookupDir]
    · have hdd : ¬ d = d' := fun hc => h hc.symm
      simp [addCredit, lookupDir_cons, lookupDir, h, hdd]
  | cons e rest ih =>
    obtain ⟨e1, es, en⟩ := e
    by_cases hed : e1 = d
    · rw [show addCredit ((e1, es, en) :: rest) d q = (e1, es + q, en + 1) :: rest from by
        simp [addCredit, hed]]
      by_cases h : d' = d
      · subst h
        rw [lookupDir_cons, lookupDir_cons]
        simp [if_pos hed, hed]
      · have hne : ¬ (e1, es, en).1 = d' := fun hc => h (hc.symm.trans hed)
        rw [lookupDir_cons, if_neg hne, if_neg h, lookupDir_cons, if_neg hne]
    · rw [show addCredit ((e1, es, en) :: rest) d q = (e1, es, en) :: addCredit rest d q from by
        simp [addCredit, hed]]
      by_cases h : d' = d
      · subst h
        rw [if_pos rfl, lookupDir_cons, if_neg hed, lookupDir_cons, if_neg hed, ih,
          if_pos rfl]
      · by_cases hd' : e1 = d'
        · rw [lookupDir_cons, if_pos hd', if_neg h, lookupDir_cons, if_pos hd']
        · rw [lookupDir_cons, if_neg hd', if_neg h, lookupDir_cons, if_neg hd', ih,
            if_neg h]

theorem foldl_addCredit_not_mem (q : ℚ) (d : String) :
    ∀ (tokens : List String) (acc : DirAcc), d ∉ tokens →
      lookupDir (tokens.foldl (fun a t => addCredit a t q) acc) d = lookupDir acc d := by
  intro tokens
  induction tokens with
  | nil => intro acc _; rfl
  | cons t ts ih =>
    intro acc hd
    have hne : ¬ d = t := fun hc => hd (by rw [hc]; exact List.mem_cons_self t ts)
    rw [List.foldl_cons, ih _ (fun hc => hd (List.mem_cons_of_mem t hc)),
      lookupDir_addCredit, if_neg hne]

theorem foldl_addCredit_mem (q : ℚ) (d : String) :
    ∀ (tokens : List String) (acc : DirAcc), tokens.Nodup → d ∈ tokens →
      lookupDir (tokens.foldl (fun a t => addCredit a t q) acc) d =
        match lookupDir acc d with
        | none => some (q, 1)
        | some (s, n) => some (s + q, n + 1) := by
  intro tokens
  induction tokens with
  | nil => intro acc _ h; simp at h
  | cons t ts ih =>
    intro acc hnd hd
    rw [List.foldl_cons]
    rcases List.mem_cons.mp hd with hdt | hdts
    · subst hdt
      have hnotin : d ∉ ts := (List.nodup_cons.mp hnd).1
      rw [foldl_addCredit_not_mem q d ts _ hnotin, lookupDir_addCredit, if_pos rfl]
    · have hne : ¬ d = t := fun hc => (List.nodup_cons.mp hnd).1 (by rw [← hc]; exact hdts)
      rw [ih _ (List.nodup_cons.mp hnd).2 hdts, lookupDir_addCredit, if_neg hne]

theorem foldl_keep (a : DirAcc) : ∀ ts : List String,
    ts.foldl (fun (a : DirAcc) (_ : String) => a) a = a := by
  intro ts
  induction ts with
  | nil => rfl
  | cons t ts ih => rw [List.foldl_cons]; exact ih

theorem lookupDir_dirStep (r : Row) (acc : DirAcc) (d : String)
    (hnd : (splitTrim r.__directors).Nodup) :
    lookupDir (dirStep acc r) d =
      match r.__yourRating with
      | none => lookupDir acc d
      | some q =>
        if d ∈ splitTrim r.__directors then
          match lookupDir acc d with
          | none => some (q, 1)
          | some (s, n) => some (s + q, n + 1)
        else lookupDir acc d := by
  unfold dirStep
  by_cases hdir : r.__directors = ""
  · rw [if_pos hdir]
    have hempty : splitTrim r.__directors = [] := by rw [hdir]; rfl
    cases hv : r.__yourRating with
    | none => rfl
    | some q => rw [hempty]; simp
  · rw [if_neg hdir]
    cases hv : r.__yourRating with
    | none =>
      simp only [hv]
      rw [foldl_keep]
    | some q =>
      simp only [hv]
      by_cases hdm : d ∈ splitTrim r.__directors
      · rw [if_pos hdm]; exact foldl_addCredit_mem q d _ acc hnd hdm
      · rw [if_neg hdm]; exact foldl_addCredit_not_mem q d _ acc hdm



theorem lookupDir_dirAcc_aux : ∀ (rows : List Row) (acc : DirAcc) (d : String),
    (∀ r ∈ rows, (splitTrim r.__directors).Nodup) →
    lookupDir (rows.foldl dirStep acc) d =
      match lookupDir acc d with
      | none =>
        if countCredits rows d = 0 then none
        else some (sumCredits rows d, countCredits rows d)
      | some (s, n) => some (s + sumCredits rows d, n + countCredits rows d) := by
  intro rows
  induction rows with
  | nil =>
    intro acc d _
    cases h : lookupDir acc d with
    | none => simp [countCredits, sumCredits, h]
    | some sn =>
      obtain ⟨s, n⟩ := sn
      simp [countCredits, sumCredits, h]
  | cons r rest ih =>
    intro acc d hnd
    have hndr : (splitTrim r.__directors).Nodup := hnd r (List.mem_cons_self r rest)
    have hndrest : ∀ r' ∈ rest, (splitTrim r'.__directors).Nodup :=
      fun r' h => hnd r' (List.mem_cons_of_mem r h)
    rw [List.foldl_cons, ih (dirStep acc r) d hndrest, lookupDir_dirStep r acc d hndr]
    cases hv : r.__yourRating with
    | none =>
      have hc : countCredits (r :: rest) d = countCredits rest d := by
        simp [countCredits, List.countP_cons, hv]
      have hs : sumCredits (r :: rest) d = sumCredits rest d := by
        simp [sumCredits, List.filterMap_cons, hv]
      rw [hc, hs]
    | some q =>
      by_cases hdm : d ∈ splitTrim r.__directors
      · have hc : countCredits (r :: rest) d = countCredits rest d + 1 := by
          simp [countCredits, List.countP_cons, hv, hdm]
        have hs : sumCredits (r :: rest) d = q + sumCredits rest d := by
          simp [sumCredits, List.filterMap_cons, hv, hdm]
        cases hacc : lookupDir acc d with
        | none =>
          simp [hacc, hdm, hc, hs, Nat.succ_ne_zero]
          omega
        | some sn =>
          obtain ⟨s, n⟩ := sn
          simp [hacc, hdm, hc, hs]
          exact ⟨by ring, by omega⟩
      · have hc : countCredits (r :: rest) d = countCredits rest d := by
          simp [countCredits, List.countP_cons, hv, hdm]
        have hs : sumCredits (r :: rest) d = sumCredits rest d := by
          simp [sumCredits, List.filterMap_cons, hv, hdm]
        cases hacc : lookupDir acc d with
        | none => simp [hacc, hdm, hc, hs]
        | some sn =>
          obtain ⟨s, n⟩ := sn
          simp [hacc, hdm, hc, hs]



theorem lookupDir_dirAcc (rows : List Row) (d : String)
    (hnd : ∀ r ∈ rows, (splitTrim r.__directors).Nodup) :
    lookupDir (dirAcc rows) d =
      if countCredits rows d = 0 then none
      else some (sumCredits rows d, countCredits rows d) := by
  have h := lookupDir_dirAcc_aux rows [] d hnd
  simpa [dirAcc, lookupDir] using h

theorem topStep_nonqual (b : Option (String × ℚ × Nat)) (e : String × ℚ × Nat)
    (h : ¬ 3 ≤ e.2.2) : topStep b e = b := by
  simp [topStep, h]

theorem topStep_none_qual (e : String × ℚ × Nat) (h : 3 ≤ e.2.2) :
    topStep none e = some (mkTop e) := by
  simp [topStep, mkTop, h]

theorem topStep_some_qual_lt (b e : String × ℚ × Nat) (h : 3 ≤ e.2.2)
    (hlt : b.2.1 < e.2.1 / (e.2.2 : ℚ)) : topStep (some b) e = some (mkTop e) := by
  simp [topStep, mkTop, h, hlt]

theorem topStep_some_qual_ge (b e : String × ℚ × Nat) (h : 3 ≤ e.2.2)
    (hge : ¬ b.2.1 < e.2.1 / (e.2.2 : ℚ)) : topStep (some b) e = some b := by
  simp [topStep, h, hge]

theorem topStep_some (t : String × ℚ × Nat) (e : String × ℚ × Nat) :
    ∃ t', topStep (some t) e = some t' := by
  by_cases h : 3 ≤ e.2.2
  · by_cases hlt : t.2.1 < e.2.1 / (e.2.2 : ℚ)
    · exact ⟨mkTop e, topStep_some_qual_lt t e h hlt⟩
    · exact ⟨t, topStep_some_qual_ge t e h hlt⟩
  · exact ⟨t, topStep_nonqual (some t) e h⟩

theorem foldl_topStep_none_iff : ∀ (l : DirAcc) (b : Option (String × ℚ × Nat)),
    l.foldl topStep b = none ↔ b = none ∧ ∀ e ∈ l, e.2.2 < 3 := by
  intro l
  induction l with
  | nil => intro b; simp
  | cons e rest ih =>
    intro b
    rw [List.foldl_cons, ih]
    by_cases hq : 3 ≤ e.2.2
    · cases b with
      | none =>
        rw [topStep_none_qual e hq]
        simp
        exact fun hc => absurd hq (by omega)
      | some t =>
        obtain ⟨t', ht'⟩ := topStep_some t e
        rw [ht']
        simp
    · rw [topStep_nonqual b e hq]
      constructor
      · rintro ⟨h1, h2⟩
        refine ⟨h1, fun e2 he2 => ?_⟩
        rcases List.mem_cons.mp he2 with h | h
        · subst h; omega
        · exact h2 e2 h
      · rintro ⟨h1, h2⟩
        exact ⟨h1, fun e2 he2 => h2 e2 (List.mem_cons_of_mem e he2)⟩

theorem foldl_topStep_mono : ∀ (l : DirAcc) (b t : String × ℚ × Nat),
    l.foldl topStep (some b) = some t → b.2.1 ≤ t.2.1 := by
  intro l
  induction l with
  | nil =>
    intro b t h
    injection h with h
    subst h
    exact le_refl _
  | cons e rest ih =>
    intro b t h
    rw [List.foldl_cons] at h
    by_cases hq : 3 ≤ e.2.2
    · by_cases hlt : b.2.1 < e.2.1 / (e.2.2 : ℚ)
      · rw [topStep_some_qual_lt b e hq hlt] at h
        exact le_trans (le_of_lt hlt) (ih (mkTop e) t h)
      · rw [topStep_some_qual_ge b e hq hlt] at h
        exact ih b t h
    · rw [topStep_nonqual (some b) e hq] at h
      exact ih b t h

theorem foldl_topStep_max : ∀ (l : DirAcc) (b : Option (String × ℚ × Nat))
    (t : String × ℚ × Nat), l.foldl topStep b = some t →
    ∀ e ∈ l, 3 ≤ e.2.2 → e.2.1 / (e.2.2 : ℚ) ≤ t.2.1 := by
  intro l
  induction l with
  | nil => intro b t _ e he; exact absurd he (List.not_mem_nil e)
  | cons e0 rest ih =>
    intro b t h e he hq
    rw [List.foldl_cons] at h
    rcases List.mem_cons.mp he with he0 | herest
    · subst he0
      -- the head is qualifying; after the step the best's avg is ≥ avg e
      cases b with
      | none =>
        rw [topStep_none_qual e hq] at h
        have := foldl_topStep_mono rest (mkTop e) t h
        simpa [mkTop] using this
      | some bb =>
        by_cases hlt : bb.2.1 < e.2.1 / (e.2.2 : ℚ)
        · rw [topStep_some_qual_lt bb e hq hlt] at h
          have := foldl_topStep_mono rest (mkTop e) t h
          simpa [mkTop] using this
        · rw [topStep_some_qual_ge bb e hq hlt] at h
          have := foldl_topStep_mono rest bb t h
          have hle : e.2.1 / (e.2.2 : ℚ) ≤ bb.2.1 := le_of_not_lt hlt
          exact le_trans hle this
    · exact ih (topStep b e0) t h e herest hq



/-- Scanning from an existing best `b`: the result is `b` itself, or the
first later entry that strictly beats every best before it; every
qualifying entry before the winner has a strictly smaller average. -/
theorem foldl_topStep_first : ∀ (l : DirAcc) (b t : String × ℚ × Nat),
    l.foldl topStep (some b) = some t →
    b.2.1 ≤ t.2.1 ∧
      (t = b ∨ ∃ pre e post, l = pre ++ e :: post ∧ 3 ≤ e.2.2 ∧ t = mkTop e ∧
        b.2.1 < t.2.1 ∧
        ∀ e2 ∈ pre, 3 ≤ e2.2.2 → e2.2.1 / (e2.2.2 : ℚ) < t.2.1) := by
  intro l
  induction l with
  | nil =>
    intro b t h
    injection h with h
    subst h
    exact ⟨le_refl _, Or.inl rfl⟩
  | cons e0 rest ih =>
    intro b t h
    rw [List.foldl_cons] at h
    by_cases hq : 3 ≤ e0.2.2
    · by_cases hlt : b.2.1 < e0.2.1 / (e0.2.2 : ℚ)
      · rw [topStep_some_qual_lt b e0 hq hlt] at h
        obtain ⟨hle, hcase⟩ := ih (mkTop e0) t h
        have hbt : b.2.1 < t.2.1 := lt_of_lt_of_le (by simpa [mkTop] using hlt) hle
        refine ⟨le_of_lt hbt, Or.inr ?_⟩
        rcases hcase with heq | ⟨pre, e, post, hdec, hqe, hmk, hblt, hpre⟩
        · exact ⟨[], e0, rest, rfl, hq, heq.symm ▸ rfl, hbt, fun e2 he2 _ =>
            absurd he2 (List.not_mem_nil e2)⟩
        · refine ⟨e0 :: pre, e, post, by rw [hdec, List.cons_append], hqe, hmk, hbt, ?_⟩
          intro e2 he2 hq2
          rcases List.mem_cons.mp he2 with h2 | h2
          · subst h2
            calc e2.2.1 / (e2.2.2 : ℚ) = (mkTop e2).2.1 := by simp [mkTop]
              _ < t.2.1 := hblt
          · exact hpre e2 h2 hq2
      · rw [topStep_some_qual_ge b e0 hq hlt] at h
        obtain ⟨hle, hcase⟩ := ih b t h
        refine ⟨hle, ?_⟩
        rcases hcase with heq | ⟨pre, e, post, hdec, hqe, hmk, hblt, hpre⟩
        · exact Or.inl heq
        · refine Or.inr ⟨e0 :: pre, e, post, by rw [hdec, List.cons_append], hqe, hmk, hblt, ?_⟩
          intro e2 he2 hq2
          rcases List.mem_cons.mp he2 with h2 | h2
          · subst h2
            exact lt_of_le_of_lt (le_of_not_lt hlt) hblt
          · exact hpre e2 h2 hq2
    · rw [topStep_nonqual (some b) e0 hq] at h
      obtain ⟨hle, hcase⟩ := ih b t h
      refine ⟨hle, ?_⟩
      rcases hcase with heq | ⟨pre, e, post, hdec, hqe, hmk, hblt, hpre⟩
      · exact Or.inl heq
      · refine Or.inr ⟨e0 :: pre, e, post, by rw [hdec, List.cons_append], hqe, hmk, hblt, ?_⟩
        intro e2 he2 hq2
        rcases List.mem_cons.mp he2 with h2 | h2
        · subst h2; exact absurd hq2 hq
        · exact hpre e2 h2 hq2

/-- Scanning from `none`: a `some` result is built from the first
qualifying entry attaining the maximum; every earlier qualifying entry has
a strictly smaller average. -/
theorem foldl_topStep_decomp : ∀ (l : DirAcc) (t : String × ℚ × Nat),
    l.foldl topStep none = some t →
    3 ≤ t.2.2 ∧ ∃ pre e post, l = pre ++ e :: post ∧ 3 ≤ e.2.2 ∧ t = mkTop e ∧
      ∀ e2 ∈ pre, 3 ≤ e2.2.2 → e2.2.1 / (e2.2.2 : ℚ) < t.2.1 := by
  intro l
  induction l with
  | nil => intro t h; cases h
  | cons e0 rest ih =>
    intro t h
    rw [List.foldl_cons] at h
    by_cases hq : 3 ≤ e0.2.2
    · rw [topStep_none_qual e0 hq] at h
      obtain ⟨hle, hcase⟩ := foldl_topStep_first rest (mkTop e0) t h
      rcases hcase with heq | ⟨pre, e, post, hdec, hqe, hmk, hblt, hpre⟩
      · subst heq
        refine ⟨by simpa [mkTop] using hq, [], e0, rest, rfl, hq, rfl, fun e2 he2 _ =>
          absurd he2 (List.not_mem_nil e2)⟩
      · refine ⟨by rw [hmk]; simpa [mkTop] using hqe, e0 :: pre, e, post, by rw [hdec, List.cons_append],
          hqe, hmk, ?_⟩
        intro e2 he2 hq2
        rcases List.mem_cons.mp he2 with h2 | h2
        · subst h2
          calc e2.2.1 / (e2.2.2 : ℚ) = (mkTop e2).2.1 := by simp [mkTop]
            _ < t.2.1 := hblt
        · exact hpre e2 h2 hq2
    · rw [topStep_nonqual none e0 hq] at h
      obtain ⟨ht, pre, e, post, hdec, hqe, hmk, hpre⟩ := ih t h
      refine ⟨ht, e0 :: pre, e, post, by rw [hdec, List.cons_append], hqe, hmk, ?_⟩
      intro e2 he2 hq2
      rcases List.mem_cons.mp he2 with h2 | h2
      · subst h2; exact absurd hq2 hq
      · exact hpre e2 h2 hq2



/-- **C6**: a director qualifies only with at least 3 rating
contributions (under duplicate-free per-record credits, exactly the
number of records with non-null `yourRating` crediting that director, as
the third part states through `lookupDir`/`countCredits`); among
qualifying directors the highest average wins, ties broken in favour of
the first-encountered entry under strict `>` (every earlier qualifying
entry has a strictly smaller average); the result is `none` when no
director qualifies.  Concretely, two records rated 8 and 9 for director
`"D"` do not qualify; adding a third rated 7 qualifies `"D"` with average
8 over 3 titles. -/
theorem C6_top_director :
    (∀ rows : List Row, (topDirector rows = none ↔ ∀ e ∈ dirAcc rows, e.2.2 < 3)) ∧
    (∀ (rows : List Row) (t : String × ℚ × Nat), topDirector rows = some t →
      3 ≤ t.2.2 ∧
      (∃ pre e post, dirAcc rows = pre ++ e :: post ∧ 3 ≤ e.2.2 ∧
        t = (e.1, e.2.1 / (e.2.2 : ℚ), e.2.2) ∧
        ∀ e2 ∈ pre, 3 ≤ e2.2.2 → e2.2.1 / (e2.2.2 : ℚ) < t.2.1) ∧
      (∀ e2 ∈ dirAcc rows, 3 ≤ e2.2.2 → e2.2.1 / (e2.2.2 : ℚ) ≤ t.2.1)) ∧
    (∀ (rows : List Row) (d : String),
      (∀ r ∈ rows, (splitTrim r.__directors).Nodup) →
      lookupDir (dirAcc rows) d =
        if countCredits rows d = 0 then none
        else some (sumCredits rows d, countCredits rows d)) ∧
    topDirector [sampleRec "D" (some 8), sampleRec "D" (some 9)] = none ∧
    topDirector [sampleRec "D" (some 8), sampleRec "D" (some 9),
      sampleRec "D" (some 7)] = some ("D", 8, 3) := by
  refine ⟨?_, ?_, fun rows d hnd => lookupDir_dirAcc rows d hnd, ?_, ?_⟩
  · intro rows
    exact (foldl_topStep_none_iff (dirAcc rows) none).trans (and_iff_right rfl)
  · intro rows t h
    obtain ⟨h3, pre, e, post, hdec, hqe, hmk, hpre⟩ :=
      foldl_topStep_decomp (dirAcc rows) t h
    exact ⟨h3, ⟨pre, e, post, hdec, hqe, hmk.trans rfl, hpre⟩,
      foldl_topStep_max (dirAcc rows) none t h⟩
  · norm_num [topDirector, dirAcc, dirStep, splitTrim, splitCommaStr, splitComma,
      jsTrim, isWS, addCredit, topStep, sampleRec, List.foldl]
  · norm_num [topDirector, dirAcc, dirStep, splitTrim, splitCommaStr, splitComma,
      jsTrim, isWS, addCredit, topStep, sampleRec, List.foldl]
    decide

/-- Witness for `C6_top_director` on the one-record collection crediting
`"D"` with rating 8: the accumulator entry for `"D"` counts exactly the
one crediting record. -/
theorem C6_witness :
    lookupDir (dirAcc [sampleRec "D" (some 8)]) "D" =
      if countCredits [sampleRec "D" (some 8)] "D" = 0 then none
      else some (sumCredits [sampleRec "D" (some 8)] "D",
        countCredits [sampleRec "D" (some 8)] "D") :=
  C6_top_director.2.2.1 [sampleRec "D" (some 8)] "D"
    (by
      intro r hr
      simp at hr
      subst hr
      decide)



theorem normalize_src (dp : String → Option Int) (raw : RawRow) (i : Nat) :
    (normalize dp raw i).src = raw := rfl

theorem mem_normalizeFrom (dp : String → Option Int) :
    ∀ (raws : List RawRow) (i0 : Nat) (r : Row), r ∈ normalizeFrom dp i0 raws →
      ∃ raw ∈ raws, ∃ i, r = normalize dp raw i := by
  intro raws
  induction raws with
  | nil => intro i0 r h; simp [normalizeFrom] at h
  | cons raw rest ih =>
    intro i0 r h
    rw [normalizeFrom] at h
    rcases List.mem_cons.mp h with h0 | h0
    · exact ⟨raw, List.mem_cons_self raw rest, i0, h0⟩
    · obtain ⟨raw', hraw', i, hi⟩ := ih (i0 + 1) r h0
      exact ⟨raw', List.mem_cons_of_mem raw hraw', i, hi⟩

/-- Generic form of the pass-through lookup: the spread object returns the
original value of any source key that does not begin with `__`. -/
theorem objGet_entriesOf_of_mem (r : Row)
    (hext : ∀ kv ∈ r.src, startsUnderscores kv.1 = false)
    (hnd : (r.src.map Prod.fst).Nodup) {kv : String × String} (hkv : kv ∈ r.src) :
    objGet (entriesOf r) kv.1 = some (.fstr kv.2) := by
  have hder : (derivedEntries r).reverse.find? (fun e => e.1 == kv.1) = none := by
    rw [List.find?_eq_none]
    intro e he hpe
    rw [beq_iff_eq] at hpe
    have hint : startsUnderscores e.1 = true :=
      derived_keys_internal r e.1
        (List.mem_map_of_mem Prod.fst (List.mem_reverse.mp he))
    rw [hpe] at hint
    rw [hext kv hkv] at hint
    cases hint
  have hmem : (kv.1, FieldVal.fstr kv.2) ∈
      (r.src.map (fun kv => (kv.1, FieldVal.fstr kv.2))).reverse := by
    rw [List.mem_reverse]
    exact List.mem_map_of_mem _ hkv
  have hsnd : ((r.src.map (fun kv => (kv.1, FieldVal.fstr kv.2))).reverse.map
      Prod.fst).Nodup := by
    rw [List.map_reverse, List.nodup_reverse, List.map_map]
    exact hnd
  have hfind := find?_key_of_mem hsnd hmem
  show ((entriesOf r).reverse.find? (fun e => e.1 == kv.1)).map (·.2) =
    some (FieldVal.fstr kv.2)
  rw [entriesOf, List.reverse_append, find?_append_none hder, hfind]
  rfl

theorem entriesOf_keys (r : Row) :
    (entriesOf r).map Prod.fst = r.src.map Prod.fst ++
      ["__title", "__type", "__url", "__genres", "__directors", "__tconst",
        "__yourRating", "__imdbRating", "__runtime", "__year",
        "__dateRated", "__releaseDate"] := by
  simp [entriesOf, derivedEntries, List.map_map]

/-- The keys of a re-keyed parsed record are the header fields that had a
present value. -/
theorem reparsed_keys (g : String → Option FieldVal) : ∀ F : List String,
    (((F.zip (F.map g)).filterMap
      (fun p => p.2.map (fun v => (p.1, v)))).map Prod.fst) =
      F.filter (fun k => (g k).isSome) := by
  intro F
  induction F with
  | nil => rfl
  | cons f F' ih =>
    rw [List.map_cons, List.zip_cons_cons, List.filterMap_cons]
    cases hg : g f with
    | none => simpa [List.filter_cons, hg] using ih
    | some v => simpa [List.filter_cons, hg] using ih

/-- Looking up a header field in the re-keyed parsed record returns the
original object's value under that field. -/
theorem objGet_reparsed (g : String → Option FieldVal) :
    ∀ (F : List String) (k : String), F.Nodup → k ∈ F →
    ∀ v : FieldVal, g k = some v →
      objGet ((F.zip (F.map g)).filterMap
        (fun p => p.2.map (fun w => (p.1, w)))) k = some v := by
  intro F
  induction F with
  | nil => intro k _ hk; exact absurd hk (List.not_mem_nil k)
  | cons f F' ih =>
    intro k hnd hk v hv
    rw [List.map_cons, List.zip_cons_cons, List.filterMap_cons]
    rcases List.mem_cons.mp hk with hkf | hkF'
    · subst hkf
      rw [hv]
      -- entry (k, v) at the head; no later entry has key k
      show objGet ((k, v) :: _) k = some v
      unfold objGet
      rw [List.reverse_cons]
      have hnone : ((F'.zip (F'.map g)).filterMap
          (fun p => p.2.map (fun w => (p.1, w)))).reverse.find?
            (fun e => e.1 == k) = none := by
        rw [List.find?_eq_none]
        intro e he hpe
        rw [beq_iff_eq] at hpe
        have : e.1 ∈ F'.filter (fun k2 => (g k2).isSome) := by
          rw [← reparsed_keys g F']
          exact List.mem_map_of_mem Prod.fst (List.mem_reverse.mp he)
        have hmem : e.1 ∈ F' := List.mem_of_mem_filter this
        rw [hpe] at hmem
        exact (List.nodup_cons.mp hnd).1 hmem
      rw [find?_append_none hnone]
      simp
    · have hnd' : F'.Nodup := (List.nodup_cons.mp hnd).2
      have hne : ¬ f = k := fun hc => (List.nodup_cons.mp hnd).1 (hc ▸ hkF')
      cases hg : g f with
      | none => exact ih k hnd' hkF' v hv
      | some w =>
        have hres := ih k hnd' hkF' v hv
        simp only [hg, Option.map_some']
        show objGet ((f, w) :: (F'.zip (F'.map g)).filterMap
          (fun p => p.2.map (fun w => (p.1, w)))) k = some v
        unfold objGet at hres ⊢
        rw [List.reverse_cons]
        cases hfind : ((F'.zip (F'.map g)).filterMap
            (fun p => p.2.map (fun w => (p.1, w)))).reverse.find?
              (fun e => e.1 == k) with
        | none => rw [hfind] at hres; simp at hres
        | some kv0 =>
          rw [find?_append_some hfind]
          rw [hfind] at hres
          exact hres



theorem map_congr_mem {α β : Type} : ∀ (l : List α) (f g : α → β),
    (∀ a ∈ l, f a = g a) → l.map f = l.map g := by
  intro l f g
  induction l with
  | nil => intro _; rfl
  | cons a rest ih =>
    intro h
    rw [List.map_cons, List.map_cons, h a (List.mem_cons_self a rest),
      ih (fun a2 h2 => h a2 (List.mem_cons_of_mem a h2))]

/-- The derived key list and its internality, as decidable facts. -/
theorem derived_key_list_facts :
    (["__title", "__type", "__url", "__genres", "__directors", "__tconst",
      "__yourRating", "__imdbRating", "__runtime", "__year",
      "__dateRated", "__releaseDate"] : List String).Nodup ∧
    ∀ k ∈ (["__title", "__type", "__url", "__genres", "__directors", "__tconst",
      "__yourRating", "__imdbRating", "__runtime", "__year",
      "__dateRated", "__releaseDate"] : List String), startsUnderscores k = true := by
  decide

/-- Serializing any uniformly-keyed collection of normalized rows with
`Papa.unparse` and re-parsing it preserves the `Title` column of every
record, in order; the header is the source columns followed by the twelve
derived keys. -/
theorem export_roundtrip_general (rows : List Row) (K : List String)
    (hsrc : ∀ r ∈ rows, r.src.map Prod.fst = K)
    (hnd : K.Nodup) (hext : ∀ k ∈ K, startsUnderscores k = false)
    (hTitle : "Title" ∈ K) :
    ((papaParse (papaUnparse (rows.map entriesOf))).map (fun o => objGet o "Title") =
      rows.map (fun r => (rawGet r.src "Title").map FieldVal.fstr)) ∧
    (rows ≠ [] → (papaUnparse (rows.map entriesOf)).fields = K ++
      ["__title", "__type", "__url", "__genres", "__directors", "__tconst",
        "__yourRating", "__imdbRating", "__runtime", "__year",
        "__dateRated", "__releaseDate"]) := by
  have hTitleGet : ∀ r ∈ rows, ∃ s : String, rawGet r.src "Title" = some s ∧
      objGet (entriesOf r) "Title" = some (.fstr s) := by
    intro r hr
    have hmemK : "Title" ∈ r.src.map Prod.fst := by rw [hsrc r hr]; exact hTitle
    obtain ⟨kv, hkv, hk1⟩ := List.mem_map.mp hmemK
    have hndr : (r.src.map Prod.fst).Nodup := by rw [hsrc r hr]; exact hnd
    have hextr : ∀ kv2 ∈ r.src, startsUnderscores kv2.1 = false := by
      intro kv2 hkv2
      exact hext kv2.1 (by rw [← hsrc r hr]; exact List.mem_map_of_mem Prod.fst hkv2)
    refine ⟨kv.2, ?_, ?_⟩
    · show (r.src.find? (fun e => e.1 == "Title")).map (·.2) = some kv.2
      rw [← hk1, find?_key_of_mem hndr hkv]
      rfl
    · rw [← hk1]
      exact objGet_entriesOf_of_mem r hextr hndr hkv
  cases rows with
  | nil =>
    refine ⟨rfl, fun hne => absurd rfl hne⟩
  | cons r0 rest =>
    have h0src : r0.src.map Prod.fst = K := hsrc r0 (List.mem_cons_self r0 rest)
    have hF : (entriesOf r0).map Prod.fst = K ++
        ["__title", "__type", "__url", "__genres", "__directors", "__tconst",
          "__yourRating", "__imdbRating", "__runtime", "__year",
          "__dateRated", "__releaseDate"] := by
      rw [entriesOf_keys, h0src]
    have hFnodup : ((entriesOf r0).map Prod.fst).Nodup := by
      rw [hF]
      refine List.Nodup.append hnd derived_key_list_facts.1 ?_
      intro a haK haD
      have h1 : startsUnderscores a = false := hext a haK
      have h2 : startsUnderscores a = true := derived_key_list_facts.2 a haD
      rw [h1] at h2
      cases h2
    have hFTitle : "Title" ∈ (entriesOf r0).map Prod.fst := by
      rw [hF]
      exact List.mem_append_left _ hTitle
    constructor
    · show (((List.map entriesOf (r0 :: rest)).map
          (fun o => ((entriesOf r0).map Prod.fst).map (objGet o))).map
            (fun vals => ((((entriesOf r0).map Prod.fst).zip vals).filterMap
              (fun p => p.2.map (fun v => (p.1, v)))))).map (fun o => objGet o "Title") =
        (r0 :: rest).map (fun r => (rawGet r.src "Title").map FieldVal.fstr)
      rw [List.map_map, List.map_map, List.map_map]
      apply map_congr_mem
      intro r hr
      obtain ⟨s, hraw, hobj⟩ := hTitleGet r hr
      show objGet ((((entriesOf r0).map Prod.fst).zip
          (((entriesOf r0).map Prod.fst).map (objGet (entriesOf r)))).filterMap
            (fun p => p.2.map (fun v => (p.1, v)))) "Title" =
        (rawGet r.src "Title").map FieldVal.fstr
      rw [hraw]
      exact objGet_reparsed (objGet (entriesOf r)) ((entriesOf r0).map Prod.fst)
        "Title" hFnodup hFTitle (FieldVal.fstr s) hobj
    · intro _
      exact hF



/-- **C2 counterexample**: exporting the filtered collection passes the
spread row objects — including the twelve derived `__`-prefixed fields —
to `Papa.unparse`, so the exported field set contains `__title` (and the
other derived keys) and is not the original source column set. -/
theorem C2_counterexample :
    "__title" ∈ (downloadCSVFromRows
      [entriesOf (normalize (fun _ => none) [("Title", "A")] 0)]).fields ∧
    (downloadCSVFromRows
      [entriesOf (normalize (fun _ => none) [("Title", "A")] 0)]).fields ≠
        ["Title"] := ⟨by decide, by decide⟩

/-- **C2 (amended)**: exporting the currently filtered (not paginated)
collection to CSV and re-parsing it reproduces the titles of the filtered
records (in order, hence as a set); but the exported field set is the
original source columns **followed by the twelve derived `__`-prefixed
fields, which are exported as well**, rather than the source columns
alone. -/
theorem C2_amended_export_roundtrip :
    ∀ (dp : String → Option Int) (raws : List RawRow) (f : FilterState)
      (K : List String),
      (∀ raw ∈ raws, raw.map Prod.fst = K) →
      K.Nodup →
      (∀ k ∈ K, startsUnderscores k = false) →
      "Title" ∈ K →
      ((papaParse (downloadCSVFromRows
          ((filteredRows (normalizeAll dp raws) f).map entriesOf))).map
            (fun o => objGet o "Title") =
        (filteredRows (normalizeAll dp raws) f).map
          (fun r => (rawGet r.src "Title").map FieldVal.fstr)) ∧
      (filteredRows (normalizeAll dp raws) f ≠ [] →
        (downloadCSVFromRows
          ((filteredRows (normalizeAll dp raws) f).map entriesOf)).fields =
          K ++ ["__title", "__type", "__url", "__genres", "__directors", "__tconst",
            "__yourRating", "__imdbRating", "__runtime", "__year",
            "__dateRated", "__releaseDate"]) := by
  intro dp raws f K hK hnd hext hTitle
  have hsrc : ∀ r ∈ filteredRows (normalizeAll dp raws) f,
      r.src.map Prod.fst = K := by
    intro r hr
    have hr2 : r ∈ normalizeAll dp raws := List.mem_of_mem_filter hr
    obtain ⟨raw, hraw, i, hi⟩ := mem_normalizeFrom dp raws 0 r hr2
    rw [hi, normalize_src]
    exact hK raw hraw
  exact export_roundtrip_general _ K hsrc hnd hext hTitle

/-- Witness for `C2_amended_export_roundtrip` on a one-row collection
with a single `Title` column under a pass-everything filter state. -/
theorem C2_witness :
    (papaParse (downloadCSVFromRows
        ((filteredRows (normalizeAll (fun _ => none) [[("Title", "A")]])
          ⟨"", 1900, 2100, 0, "all", []⟩).map entriesOf))).map
            (fun o => objGet o "Title") =
      (filteredRows (normalizeAll (fun _ => none) [[("Title", "A")]])
        ⟨"", 1900, 2100, 0, "all", []⟩).map
          (fun r => (rawGet r.src "Title").map FieldVal.fstr) :=
  (C2_amended_export_roundtrip (fun _ => none) [[("Title", "A")]]
    ⟨"", 1900, 2100, 0, "all", []⟩ ["Title"] (by decide) (by decide) (by decide)
    (by decide)).1


end IMDbViz
